import Mathlib

/-! Bounded-confidence opinion dynamics (`main.go`).

A shallow embedding of the simulation engine of `main.go`: the agent/model data
types, `addAgent`, `updateOpinions`, `NewModel`, `initializeNetwork`,
`opinionsChanged` and `runner`.

Modelling conventions.

* `float64` opinions are rationals: every statement is about exact arithmetic.
* Go `int`s that only ever hold non-negative values here (ids, counters, sizes)
  are `Nat`.
* `map[int]*Agent` is a list of agents keyed by `Agent.id` (a Go map has each
  key once); `map[int]bool` used as a set is a `Finset Nat`.
* Every call `rand.Intn(k)` consumes one raw draw `r` and yields `r % k`, so
  each raw draw is a legal outcome and every outcome in `[0, k)` is reached.
  `rand.Intn(0)` panics.
* The iteration order of `range` over a map is unspecified in Go; it is fixed
  here by a list of choices (see `rangeOrder`), every list being legal.
* A loop that may run for ever is run on a finite supply of draws; running out
  is the fault `exhausted`, a nil dereference or `rand.Intn(0)` is `panic`.
-/

namespace DynamicAgentModel

/-- Ways in which a call fails to return a value. -/
inductive Fault where
  /-- a run-time panic (nil pointer dereference, `rand.Intn` of a non-positive bound) -/
  | panic
  /-- the loop asked for another random draw after the supplied ones were used up -/
  | exhausted
deriving DecidableEq

/-- Equality of results is decidable, so closed instances can be evaluated. -/
instance instDecidableEqExcept {ε α : Type} [DecidableEq ε] [DecidableEq α] :
    DecidableEq (Except ε α)
  | .ok a, .ok b =>
    if h : a = b then isTrue (by rw [h]) else isFalse (by intro h2; cases h2; exact h rfl)
  | .error a, .error b =>
    if h : a = b then isTrue (by rw [h]) else isFalse (by intro h2; cases h2; exact h rfl)
  | .ok _, .error _ => isFalse (by intro h; cases h)
  | .error _, .ok _ => isFalse (by intro h; cases h)

/-- Package variable `paramMinStationary`. -/
def paramMinStationary : Nat := 100

/-- Package variable `paramOpinionDiffEpsilon` (`0.00000001`). -/
def paramOpinionDiffEpsilon : ℚ := 1 / 100000000

/-- The Go struct `Agent`. -/
structure Agent where
  id : Nat
  current_opinion : ℚ
  previous_opinion : ℚ
  new_opinion : ℚ
  neighbors : Finset Nat
deriving DecidableEq

/-- The Go struct `Model`; `agents` lists the entries of the map `id -> *Agent`. -/
structure Model where
  agents : List Agent
  confidence : ℚ
  alpha : ℚ
  numUpdateNodes : Nat
deriving DecidableEq

/-- The map lookup `m.agents[id]`; `none` is the nil pointer of a missing key. -/
def Model.agent? (m : Model) (id : Nat) : Option Agent :=
  m.agents.find? (fun a => decide (a.id = id))

/-- A write through the pointer stored under key `id`: the entry is replaced by
`f` of itself, every other entry is untouched. -/
def Model.modify (m : Model) (id : Nat) (f : Agent → Agent) : Model :=
  { m with agents := m.agents.map (fun a => if a.id = id then f a else a) }

/-- The neighbor set stored for `id` (empty when the key is missing). -/
def Model.neighborsOf (m : Model) (id : Nat) : Finset Nat :=
  match m.agent? id with
  | some a => a.neighbors
  | none => ∅

/-- `addAgent`: `m.agents[agent.id] = agent` (an existing entry is overwritten). -/
def Model.addAgent (m : Model) (agent : Agent) : Model :=
  if m.agents.any (fun a => decide (a.id = agent.id)) then
    { m with agents := m.agents.map (fun a => if a.id = agent.id then agent else a) }
  else
    { m with agents := m.agents ++ [agent] }

/-- Insertion of a key into the set `nodes_to_update`, kept in insertion order. -/
def setInsert (x : Nat) (l : List Nat) : List Nat :=
  if x ∈ l then l else l ++ [x]

/-- Lines 53-56 of `updateOpinions`: draw ids until `numUpdateNodes` distinct
ones are in `nodes_to_update`. Returns the set and the unused draws. -/
def selectNodes (numAgents q : Nat) : List Nat → List Nat → Except Fault (List Nat × List Nat)
  | [], nodes =>
    if nodes.length < q then
      if numAgents = 0 then .error .panic else .error .exhausted
    else .ok (nodes, [])
  | r :: rest, nodes =>
    if nodes.length < q then
      if numAgents = 0 then .error .panic
      else selectNodes numAgents q rest (setInsert (r % numAgents) nodes)
    else .ok (nodes, r :: rest)

/-- An iteration order for `range` over a map with entries `l`: the next entry
visited is the one at position `choice % remaining` among those not yet visited
(position `0` once the choices are used up). -/
def rangeOrderAux {α : Type} : Nat → List Nat → List α → List α
  | 0, _, _ => []
  | fuel + 1, choices, l =>
    match l with
    | [] => []
    | x :: xs =>
      let k := choices.headD 0 % (x :: xs).length
      ((x :: xs).getD k x) :: rangeOrderAux fuel choices.tail ((x :: xs).eraseIdx k)

/-- The entries of `l` in the order fixed by `choices`. -/
def rangeOrder {α : Type} (choices : List Nat) (l : List α) : List α :=
  rangeOrderAux l.length choices l

/-- Line 71: `neighborId := rand.Intn(numNeighbors)` for raw draw `r`. -/
def pickNeighbor (agent1 : Agent) (r : Nat) : Nat :=
  r % agent1.neighbors.card

/-- Lines 72-84: the interaction of picked agent `agentId` with `neighborId`. -/
def interact (m : Model) (agentId neighborId : Nat) : Except Fault Model :=
  match m.agent? agentId, m.agent? neighborId with
  | some agent1, some agent2 =>
    let opinionDiff := agent1.current_opinion - agent2.current_opinion
    if |opinionDiff| < m.confidence then
      let alphaDiff := m.alpha * opinionDiff
      let m1 := m.modify neighborId (fun a => { a with new_opinion := a.new_opinion + alphaDiff })
      .ok (m1.modify agentId (fun a => { a with new_opinion := a.new_opinion + (-alphaDiff) }))
    else .ok m
  | _, _ => .error .panic

/-- Lines 62-84: the body of the loop over `nodes_to_update` for one picked id.
Returns the model and the unused draws. -/
def updateAgent (m : Model) (agentId : Nat) (draws : List Nat) :
    Except Fault (Model × List Nat) :=
  match m.agent? agentId with
  | none => .error .panic
  | some agent1 =>
    if agent1.neighbors.card = 0 then .ok (m, draws)
    else
      match draws with
      | [] => .error .exhausted
      | r :: rest =>
        match interact m agentId (pickNeighbor agent1 r) with
        | .ok m1 => .ok (m1, rest)
        | .error e => .error e

/-- Lines 61-85: the loop over the picked ids, in the order given. -/
def updateLoop : List Nat → Model → List Nat → Except Fault (Model × List Nat)
  | [], m, draws => .ok (m, draws)
  | agentId :: rest, m, draws =>
    match updateAgent m agentId draws with
    | .ok (m1, draws1) => updateLoop rest m1 draws1
    | .error e => .error e

/-- `updateOpinions`: `draws` are the raw results of `math/rand` in call order,
`order` fixes the iteration order over `nodes_to_update`. -/
def updateOpinions (m : Model) (draws order : List Nat) : Except Fault Model :=
  match selectNodes m.agents.length m.numUpdateNodes draws [] with
  | .error e => .error e
  | .ok (nodes, draws1) =>
    match updateLoop (rangeOrder order nodes) m draws1 with
    | .ok (m1, _) => .ok m1
    | .error e => .error e

/-- Lines 138-140 of `initializeNetwork`: the symmetric connection. -/
def addEdge (m : Model) (id1 id2 : Nat) : Model :=
  (m.modify id1 (fun a => { a with neighbors := insert id2 a.neighbors })).modify id2
    (fun a => { a with neighbors := insert id1 a.neighbors })

/-- State of the edge loop of `initializeNetwork`. -/
structure NetState where
  model : Model
  edges : Nat
deriving DecidableEq

/-- Lines 122-147 of `initializeNetwork`, run on the supplied pairs of raw
draws (one pair per pass of the inner loop `for id1 == id2`). The result is the
state at loop exit, or the state reached when the pairs are used up. -/
def edgeLoop (n numEdges : Nat) : List (Nat × Nat) → NetState → Except Fault NetState
  | [], s => .ok s
  | (r1, r2) :: rest, s =>
    if s.edges < numEdges then
      if n = 0 then .error .panic
      else
        let id1 := r1 % n
        let id2 := r2 % n
        if id1 = id2 then edgeLoop n numEdges rest s
        else
          match s.model.agent? id1 with
          | none => .error .panic
          | some ag1 =>
            if id2 ∈ ag1.neighbors then edgeLoop n numEdges rest s
            else
              match s.model.agent? id2 with
              | none => .error .panic
              | some _ => edgeLoop n numEdges rest ⟨addEdge s.model id1 id2, s.edges + 1⟩
    else .ok s

/-- `initializeNetwork(n, p)`: `numEdges` is the value of the binomial draw
`int(binDist.Rand())`, the only use made of `p`. Returns once the loop has
exited. -/
def initializeNetwork (m : Model) (n numEdges : Nat) (draws : List (Nat × Nat)) :
    Except Fault Model :=
  match edgeLoop n numEdges draws ⟨m, 0⟩ with
  | .error e => .error e
  | .ok s =>
    if s.edges < numEdges then
      if n = 0 then .error .panic else .error .exhausted
    else .ok s.model

/-- Lines 95-106 of `NewModel`: agent `i` gets opinion `x i` (the `i`-th result
of `rand.Float64`) in all three fields and an empty neighbor set. -/
def newAgents (x : Nat → ℚ) : Nat → Model → Model
  | 0, m => m
  | k + 1, m =>
    (newAgents x k m).addAgent
      { id := k, current_opinion := x k, previous_opinion := x k, new_opinion := x k,
        neighbors := ∅ }

/-- `NewModel(n, p, c, a, q)`. -/
def NewModel (n : Nat) (c a : ℚ) (q : Nat) (x : Nat → ℚ) (numEdges : Nat)
    (draws : List (Nat × Nat)) : Except Fault Model :=
  initializeNetwork (newAgents x n ⟨[], c, a, q⟩) n numEdges draws

/-- The loop of `opinionsChanged` over the entries. -/
def opinionsChangedLoop : List Agent → Bool
  | [] => true
  | agent :: rest =>
    if |agent.previous_opinion - agent.new_opinion| > paramOpinionDiffEpsilon then false
    else opinionsChangedLoop rest

/-- `opinionsChanged`. -/
def opinionsChanged (model : Model) : Bool :=
  opinionsChangedLoop model.agents

/-- Lines 177-178: the commit of one agent. -/
def commitAgent (agent : Agent) : Agent :=
  { agent with previous_opinion := agent.current_opinion, current_opinion := agent.new_opinion }

/-- Lines 175-181 of `runner`: every entry of the map is visited once, in the
order fixed by `order`; each visit commits that agent and appends its opinion. -/
def commit (model : Model) (order : List Nat) : Model × List ℚ :=
  ({ model with agents := model.agents.map commitAgent },
   (rangeOrder order model.agents).map (fun agent => (commitAgent agent).current_opinion))

/-- The outcomes of the non-deterministic choices made during one step. -/
structure StepChoices where
  /-- raw results of `math/rand`, in call order -/
  rand : List Nat
  /-- iteration order over `nodes_to_update` -/
  order : List Nat
  /-- iteration order over `model.agents` in the commit loop -/
  commit : List Nat

/-- The local variables of `runner`. -/
structure RunnerState where
  model : Model
  tstep : Nat
  stationary : Nat
  data : List (List ℚ)
deriving DecidableEq

/-- The condition of the loop of `runner`. -/
def runnerCond (minStationary maxSteps : Nat) (s : RunnerState) : Bool :=
  decide (s.tstep ≤ maxSteps) && decide (s.stationary < minStationary)

/-- Lines 173-189: one pass of the loop body of `runner`. -/
def runnerStep (choices : Nat → StepChoices) (s : RunnerState) : Except Fault RunnerState :=
  match updateOpinions s.model (choices s.tstep).rand (choices s.tstep).order with
  | .error e => .error e
  | .ok m1 =>
    let (m2, opinions) := commit m1 (choices s.tstep).commit
    .ok { model := m2
          tstep := s.tstep + 1
          stationary := if opinionsChanged m2 then s.stationary + 1 else 0
          data := s.data ++ [opinions] }

/-- The loop of `runner`, cut after `k` passes: the state at loop exit, or the
state after `k` passes when the loop is still running. -/
def runnerLoop (minStationary maxSteps : Nat) (choices : Nat → StepChoices) :
    Nat → RunnerState → Except Fault RunnerState
  | 0, s => .ok s
  | k + 1, s =>
    if runnerCond minStationary maxSteps s then
      match runnerStep choices s with
      | .ok s1 => runnerLoop minStationary maxSteps choices k s1
      | .error e => .error e
    else .ok s

/-- The initial values of the local variables of `runner`. -/
def runnerInit (model : Model) : RunnerState :=
  { model := model, tstep := 1, stationary := 0, data := [] }

/-- `runner(model, maxSteps)` with `paramMinStationary = minStationary`; the
loop makes at most `maxSteps` passes since `tstep` starts at `1`. -/
def runner (minStationary : Nat) (model : Model) (maxSteps : Nat)
    (choices : Nat → StepChoices) : Except Fault (List (List ℚ)) :=
  match runnerLoop minStationary maxSteps choices maxSteps (runnerInit model) with
  | .ok s => .ok s.data
  | .error e => .error e

/-! ## Properties of the network -/

/-- The adjacency is symmetric. -/
def Model.Symmetric (m : Model) : Prop :=
  ∀ id1 id2 : Nat, id2 ∈ m.neighborsOf id1 ↔ id1 ∈ m.neighborsOf id2

/-- No agent is its own neighbor. -/
def Model.LoopFree (m : Model) : Prop :=
  ∀ id : Nat, id ∉ m.neighborsOf id

/-- The unordered pairs `{id1, id2}` of ids below `n` that are neighbors, each
listed once as `(id1, id2)` with `id1 < id2`. -/
def edgeSet (m : Model) (n : Nat) : Finset (Nat × Nat) :=
  ((Finset.range n) ×ˢ (Finset.range n)).filter
    (fun p => p.1 < p.2 ∧ (p.2 ∈ m.neighborsOf p.1 ∨ p.1 ∈ m.neighborsOf p.2))

/-- Number of edges of the network on the ids below `n`. -/
def edgeCount (m : Model) (n : Nat) : Nat :=
  (edgeSet m n).card

/-! ## Vocabulary of the statements -/

/-- An agent with its accumulator `new_opinion` blanked: what `updateOpinions`
never writes. -/
def Agent.frame (a : Agent) : Agent := { a with new_opinion := 0 }

/-- The model with every accumulator blanked. -/
def Model.frame (m : Model) : Model := { m with agents := m.agents.map Agent.frame }

/-- The keys of the map `agents`, in list order. -/
def Model.ids (m : Model) : List Nat := m.agents.map Agent.id

/-- No agent's current opinion differs between the two models by more than
`paramOpinionDiffEpsilon`. -/
def quietStep (before after : Model) : Prop :=
  ∀ (id : Nat) (a b : Agent), before.agent? id = some a → after.agent? id = some b →
    |b.current_opinion - a.current_opinion| ≤ paramOpinionDiffEpsilon

/-- The draws supplied for one step suffice: the selection loop of
`updateOpinions` ends within them and leaves at least one draw for each picked
id (each picked id makes at most one partner draw). -/
def sufficientDraws (numAgents q : Nat) (draws : List Nat) : Bool :=
  match selectNodes numAgents q draws [] with
  | .ok (nodes, rest) => decide (nodes.length ≤ rest.length)
  | .error _ => false

/-- The shape of the models built by `NewModel` with `q ≤ n`: every id below
the number of agents is a key, every neighbor set is a set of such ids, and at
most that many ids are picked per step. -/
structure Model.WellFormed (m : Model) : Prop where
  keys : ∀ id, id < m.agents.length → (m.agent? id).isSome = true
  neighbors : ∀ a ∈ m.agents, a.neighbors ⊆ Finset.range m.agents.length
  picks : m.numUpdateNodes ≤ m.agents.length

/-- What the loop of `runner` maintains on a well-formed model. -/
structure RunnerInv (maxSteps numAgents q : Nat) (s : RunnerState) : Prop where
  wf : s.model.WellFormed
  size : s.model.agents.length = numAgents
  picks : s.model.numUpdateNodes = q
  snapshots : s.data.length + 1 = s.tstep
  bound : s.tstep ≤ maxSteps + 1

/-- All pairs `(id1, id2)` with `id1 < id2 < n`. -/
def allPairs (n : Nat) : Finset (Nat × Nat) :=
  ((Finset.range n) ×ˢ (Finset.range n)).filter (fun p => p.1 < p.2)

/-- What the edge loop of `initializeNetwork` maintains. -/
structure NetInv (n : Nat) (s : NetState) : Prop where
  symmetric : s.model.Symmetric
  loopFree : s.model.LoopFree
  count : edgeCount s.model n = s.edges

/-- The selection loop of `updateOpinions` ends within the supplied draws. -/
def selectionEnds (numAgents q : Nat) (draws : List Nat) : Bool :=
  match selectNodes numAgents q draws [] with
  | .ok _ => true
  | .error _ => false

/-- What the loop of `runner` maintains on a model `model` without edges whose
agents have `new_opinion = current_opinion`: the model is the initial one or
its committed form, every step so far was stationary, and the snapshot of step
`t + 1` lists the initial opinions in the iteration order of that step. -/
structure IsolatedInv (minStationary : Nat) (choices : Nat → StepChoices) (model : Model)
    (s : RunnerState) : Prop where
  state : s.model = model ∨ s.model = (commit model []).1
  stationary : s.stationary + 1 = s.tstep
  bound : s.tstep ≤ minStationary + 1
  size : s.data.length + 1 = s.tstep
  snapshots : ∀ t, t < s.data.length →
    s.data[t]? = some ((rangeOrder (choices (t + 1)).commit model.agents).map
      Agent.current_opinion)

/-- The topology of the network: each entry's id with its neighbor set. -/
def Model.topology (m : Model) : List (Nat × Finset Nat) :=
  m.agents.map (fun a => (a.id, a.neighbors))

/-- Line 114 of `initializeNetwork`: `numMaxEdges := n * (n - 1) / 2` (for
`n = 0` the Go value `0 * (-1) / 2` is `0` as well). -/
def numMaxEdges (n : Nat) : Nat :=
  n * (n - 1) / 2

/-- The sum of `new_opinion` over all agents. -/
def Model.totalNew (m : Model) : ℚ :=
  (m.agents.map Agent.new_opinion).sum

/-- The sum of `current_opinion` over all agents. -/
def Model.totalCurrent (m : Model) : ℚ :=
  (m.agents.map Agent.current_opinion).sum

/-- The model with `delta k` added to the `new_opinion` of every agent `k`. -/
def Model.addToNew (m : Model) (delta : Nat → ℚ) : Model :=
  { m with
    agents := m.agents.map (fun a => { a with new_opinion := a.new_opinion + delta a.id }) }

/-- Lines 63-72 with the raw partner draw of picked agent `i` given as `draw i`:
the partner id of `i`, if `i` has a neighbor. -/
def partnerOf (m : Model) (draw : Nat → Nat) (i : Nat) : Option Nat :=
  match m.agent? i with
  | none => none
  | some agent1 =>
    if agent1.neighbors.card = 0 then none else some (pickNeighbor agent1 (draw i))

/-- Lines 74-80: `alpha * d_i` when picked agent `i` interacts, that is when it
has a partner `j` and `d_i = current_opinion[i] - current_opinion[j]` has
`|d_i| < confidence`; `0` otherwise. -/
def transfer (m : Model) (draw : Nat → Nat) (i : Nat) : ℚ :=
  match m.agent? i, partnerOf m draw i with
  | some agent1, some j =>
    match m.agent? j with
    | some agent2 =>
      if |agent1.current_opinion - agent2.current_opinion| < m.confidence then
        m.alpha * (agent1.current_opinion - agent2.current_opinion)
      else 0
    | none => 0
  | _, _ => 0

/-- The net change of `new_opinion[k]` in one step with picked ids `nodes`:
minus the transfers of the picked `i = k`, plus the transfers of the picked `i`
whose partner is `k`. -/
def netChange (m : Model) (draw : Nat → Nat) (nodes : List Nat) (k : Nat) : ℚ :=
  -(nodes.map (fun i => if i = k then transfer m draw i else 0)).sum +
    (nodes.map (fun i => if partnerOf m draw i = some k then transfer m draw i else 0)).sum

/-- The partner draws the loop over `nodes` makes, in processing order: one
for each picked id that has a neighbor. -/
def partnerDraws (m : Model) (draw : Nat → Nat) (nodes : List Nat) : List Nat :=
  (nodes.filter (fun i => (partnerOf m draw i).isSome)).map draw

/-! ## Concrete models -/

/-- An agent all of whose opinion fields hold `x`, as `NewModel` creates it. -/
def freshAgent (id : Nat) (x : ℚ) (neighbors : Finset Nat) : Agent :=
  { id := id, current_opinion := x, previous_opinion := x, new_opinion := x,
    neighbors := neighbors }

/-- Scenario A: agents `0` and `1` joined by one edge, opinions `0.2` and `0.8`,
confidence `1.0`, alpha `0.5`, one picked agent per step. -/
def scenarioA : Model :=
  { agents := [freshAgent 0 (1 / 5) {1}, freshAgent 1 (4 / 5) {0}]
    confidence := 1, alpha := 1 / 2, numUpdateNodes := 1 }

/-- Three agents with the default parameters of `main.go` (confidence `0.3`,
alpha `0.1`, one picked agent per step): `1` and `2` are joined by an edge,
`0` is isolated. -/
def isolatedZero : Model :=
  { agents := [freshAgent 0 (1 / 5) ∅, freshAgent 1 (2 / 5) {2}, freshAgent 2 (4 / 5) {1}]
    confidence := 3 / 10, alpha := 1 / 10, numUpdateNodes := 1 }

/-- One agent without neighbors, two picks per step: what
`NewModel(1, p, 0.3, 0.1, 2)` builds. -/
def loneAgentTwoPicks : Model :=
  { agents := [freshAgent 0 (1 / 2) ∅], confidence := 3 / 10, alpha := 1 / 10,
    numUpdateNodes := 2 }

/-- Choices under which every step draws `1` in the selection loop and `0` as
partner draw, with the default iteration orders. -/
def pickOneChoices : Nat → StepChoices :=
  fun _ => { rand := [1, 0], order := [], commit := [] }

/-- The state of `runner` on Scenario A after three steps under
`pickOneChoices`. -/
def scenarioAFinal : RunnerState :=
  { model := { agents := [freshAgent 0 (1 / 2) {1}, freshAgent 1 (1 / 2) {0}]
               confidence := 1, alpha := 1 / 2, numUpdateNodes := 1 }
    tstep := 4
    stationary := 2
    data := [[1 / 2, 1 / 2], [1 / 2, 1 / 2], [1 / 2, 1 / 2]] }

/-- Three agents with empty neighbor sets, as lines 95-106 of `NewModel` create
them. -/
def threeFresh : Model :=
  { agents := [freshAgent 0 (1 / 5) ∅, freshAgent 1 (2 / 5) ∅, freshAgent 2 (4 / 5) ∅]
    confidence := 3 / 10, alpha := 1 / 10, numUpdateNodes := 1 }

/-- Choices under which every step draws `0` in the selection loop, with the
default iteration orders. -/
def pickZeroChoices : Nat → StepChoices :=
  fun _ => { rand := [0], order := [], commit := [] }

/-- No agent and no pick per step: what `NewModel(0, p, 0.3, 0.1, 0)` builds. -/
def noAgents : Model :=
  { agents := [], confidence := 3 / 10, alpha := 1 / 10, numUpdateNodes := 0 }

/-- Choices under which the commit loop of every step visits the second entry
of the agent map first. -/
def secondFirstChoices : Nat → StepChoices :=
  fun _ => { rand := [0], order := [], commit := [1] }

/-- Raw partner draws that are `0` for every picked agent. -/
def zeroDraw : Nat → Nat :=
  fun _ => 0

/-! ## Auxiliary lemmas -/

theorem updateAgent_step (m : Model) (agentId : Nat) (agent1 : Agent) (r : Nat) (rest : List Nat)
    (h : m.agent? agentId = some agent1) (hc : agent1.neighbors.card ≠ 0) :
    updateAgent m agentId (r :: rest) =
      match interact m agentId (pickNeighbor agent1 r) with
      | .ok m1 => .ok (m1, rest)
      | .error e => .error e := by
  unfold updateAgent
  simp only [h, hc, if_false]

theorem agent?_id {m : Model} {k : Nat} {a : Agent} (h : m.agent? k = some a) : a.id = k := by
  have := List.find?_some h
  simpa using this

theorem agent?_mem {m : Model} {k : Nat} {a : Agent} (h : m.agent? k = some a) :
    a ∈ m.agents :=
  List.mem_of_find?_eq_some h

theorem agent?_modify (m : Model) (id k : Nat) (f : Agent → Agent)
    (hf : ∀ a, (f a).id = a.id) :
    (m.modify id f).agent? k = (m.agent? k).map (fun a => if a.id = id then f a else a) := by
  unfold Model.agent? Model.modify
  simp only
  induction m.agents with
  | nil => rfl
  | cons a l ih =>
    simp only [List.map_cons, List.find?_cons]
    have hid : (if a.id = id then f a else a).id = a.id := by
      split
      · exact hf a
      · rfl
    rw [hid]
    by_cases h : a.id = k
    · simp [h]
    · simp [h, ih]

theorem rangeOrder_singleton {α : Type} (choices : List Nat) (x : α) :
    rangeOrder choices [x] = [x] := by
  simp [rangeOrder, rangeOrderAux, Nat.mod_one]

theorem opinionsChangedLoop_iff (l : List Agent) :
    opinionsChangedLoop l = true ↔
      ∀ agent ∈ l, |agent.previous_opinion - agent.new_opinion| ≤ paramOpinionDiffEpsilon := by
  induction l with
  | nil => simp [opinionsChangedLoop]
  | cons a l ih =>
    unfold opinionsChangedLoop
    by_cases h : |a.previous_opinion - a.new_opinion| > paramOpinionDiffEpsilon
    · simp only [h, if_true, List.mem_cons, forall_eq_or_imp]
      constructor
      · intro hf
        cases hf
      · intro hall
        exact absurd hall.1 (not_le.mpr h)
    · simp only [h, if_false, List.mem_cons, forall_eq_or_imp, ih]
      constructor
      · intro hall
        exact ⟨not_lt.mp h, hall⟩
      · intro hall
        exact hall.2

theorem find?_map_id (l : List Agent) (g : Agent → Agent) (hg : ∀ a, (g a).id = a.id) (k : Nat) :
    (l.map g).find? (fun a => decide (a.id = k)) =
      (l.find? (fun a => decide (a.id = k))).map g := by
  induction l with
  | nil => rfl
  | cons a l ih =>
    simp only [List.map_cons, List.find?_cons, hg]
    by_cases h : a.id = k
    · simp [h]
    · simp [h, ih]

theorem agent?_frame (m : Model) (k : Nat) :
    m.frame.agent? k = (m.agent? k).map Agent.frame :=
  find?_map_id m.agents Agent.frame (fun _ => rfl) k

theorem modify_frame (m : Model) (id : Nat) (f : Agent → Agent)
    (hf : ∀ a, (f a).frame = a.frame) : (m.modify id f).frame = m.frame := by
  unfold Model.frame Model.modify
  simp only [List.map_map]
  congr 1
  apply List.map_congr_left
  intro a _
  simp only [Function.comp]
  split
  · exact hf a
  · rfl

theorem interact_frame {m m1 : Model} {i j : Nat} (h : interact m i j = .ok m1) :
    m1.frame = m.frame := by
  unfold interact at h
  split at h
  · dsimp only at h
    split at h
    · injection h with h
      rw [← h, modify_frame, modify_frame]
      · intro a
        rfl
      · intro a
        rfl
    · injection h with h
      rw [h]
  · cases h

theorem updateAgent_frame {m m1 : Model} {i : Nat} {draws rest : List Nat}
    (h : updateAgent m i draws = .ok (m1, rest)) : m1.frame = m.frame := by
  unfold updateAgent at h
  split at h
  · cases h
  · split at h
    · injection h with h
      injection h with h1 h2
      rw [h1]
    · split at h
      · cases h
      · split at h
        · rename_i m2 hint
          injection h with h
          injection h with h1 h2
          rw [← h1]
          exact interact_frame hint
        · cases h

theorem updateLoop_frame (nodes : List Nat) : ∀ {m m1 : Model} {draws rest : List Nat},
    updateLoop nodes m draws = .ok (m1, rest) → m1.frame = m.frame := by
  induction nodes with
  | nil =>
    intro m m1 draws rest h
    simp only [updateLoop] at h
    injection h with h
    injection h with h1 h2
    rw [h1]
  | cons x xs ih =>
    intro m m1 draws rest h
    simp only [updateLoop] at h
    split at h
    · rename_i m2 d2 hu
      rw [ih h, updateAgent_frame hu]
    · cases h

theorem updateOpinions_frame {m m1 : Model} {draws order : List Nat}
    (h : updateOpinions m draws order = .ok m1) : m1.frame = m.frame := by
  unfold updateOpinions at h
  split at h
  · cases h
  · split at h
    · rename_i hl
      injection h with h
      rw [← h]
      exact updateLoop_frame _ hl
    · cases h

theorem frame_ids {m m1 : Model} (h : m1.frame = m.frame) : m1.ids = m.ids := by
  have h1 : ∀ x : Model, x.frame.ids = x.ids := by
    intro x
    simp [Model.ids, Model.frame, Agent.frame, Function.comp]
  rw [← h1 m1, ← h1 m, h]

theorem commit_ids (m : Model) (c : List Nat) : (commit m c).1.ids = m.ids := by
  simp [Model.ids, commit, commitAgent, Function.comp]

theorem agent?_commit (m : Model) (c : List Nat) (k : Nat) :
    (commit m c).1.agent? k = (m.agent? k).map commitAgent :=
  find?_map_id m.agents commitAgent (fun _ => rfl) k

theorem find?_of_nodup (l : List Agent) (hnd : (l.map Agent.id).Nodup) (a : Agent)
    (ha : a ∈ l) : l.find? (fun b => decide (b.id = a.id)) = some a := by
  induction l with
  | nil => cases ha
  | cons x xs ih =>
    rw [List.map_cons, List.nodup_cons] at hnd
    rw [List.find?_cons]
    rcases List.mem_cons.mp ha with hx | hx
    · subst hx
      simp
    · have hne : ¬ x.id = a.id := by
        intro he
        apply hnd.1
        rw [he]
        exact List.mem_map_of_mem Agent.id hx
      simp only [hne, decide_False]
      exact ih hnd.2 hx

theorem opinionsChanged_commit_iff_quiet {m m1 : Model} (c : List Nat)
    (hf : m1.frame = m.frame) (hnd : m.ids.Nodup) :
    opinionsChanged (commit m1 c).1 = true ↔ quietStep m (commit m1 c).1 := by
  have hlook : ∀ k, (m1.agent? k).map Agent.frame = (m.agent? k).map Agent.frame := by
    intro k
    rw [← agent?_frame, ← agent?_frame, hf]
  have hall : opinionsChanged (commit m1 c).1 = true ↔
      ∀ a1 ∈ m1.agents, |a1.current_opinion - a1.new_opinion| ≤ paramOpinionDiffEpsilon := by
    unfold opinionsChanged
    rw [opinionsChangedLoop_iff]
    simp only [commit, List.mem_map, forall_exists_index, and_imp, forall_apply_eq_imp_iff₂,
      commitAgent]
  rw [hall]
  constructor
  · intro h id a b ha hb
    rw [agent?_commit] at hb
    cases h1 : m1.agent? id with
    | none => rw [h1] at hb; cases hb
    | some a1 =>
      rw [h1] at hb
      simp only [Option.map_some', Option.some.injEq] at hb
      have hfr := hlook id
      rw [h1, ha] at hfr
      simp only [Option.map_some', Option.some.injEq] at hfr
      have hcur : a1.current_opinion = a.current_opinion := by
        have := congrArg Agent.current_opinion hfr
        simpa [Agent.frame] using this
      have hq := h a1 (agent?_mem h1)
      rw [← hb]
      simp only [commitAgent]
      rw [← hcur, abs_sub_comm]
      exact hq
  · intro h a1 ha1
    have hnd1 : (m1.agents.map Agent.id).Nodup := by
      have := frame_ids hf
      unfold Model.ids at this
      rw [this]
      exact hnd
    have h1 : m1.agent? a1.id = some a1 := find?_of_nodup m1.agents hnd1 a1 ha1
    have hfr := hlook a1.id
    rw [h1] at hfr
    cases h0 : m.agent? a1.id with
    | none => rw [h0] at hfr; cases hfr
    | some a =>
      rw [h0] at hfr
      simp only [Option.map_some', Option.some.injEq] at hfr
      have hcur : a1.current_opinion = a.current_opinion := by
        have := congrArg Agent.current_opinion hfr
        simpa [Agent.frame] using this
      have hb : (commit m1 c).1.agent? a1.id = some (commitAgent a1) := by
        rw [agent?_commit, h1]
        rfl
      have hq := h a1.id a (commitAgent a1) h0 hb
      simp only [commitAgent] at hq
      rw [hcur, abs_sub_comm]
      exact hq

theorem runnerStep_ok {choices : Nat → StepChoices} {s s1 : RunnerState}
    (h : runnerStep choices s = .ok s1) :
    ∃ m1, updateOpinions s.model (choices s.tstep).rand (choices s.tstep).order = .ok m1 ∧
      s1.model = (commit m1 (choices s.tstep).commit).1 ∧
      s1.tstep = s.tstep + 1 ∧
      s1.stationary =
        (if opinionsChanged (commit m1 (choices s.tstep).commit).1 then s.stationary + 1
         else 0) ∧
      s1.data = s.data ++ [(commit m1 (choices s.tstep).commit).2] := by
  unfold runnerStep at h
  split at h
  · cases h
  · rename_i m1 hu
    injection h with h
    subst h
    exact ⟨m1, hu, rfl, rfl, rfl, rfl⟩

theorem runnerLoop_succ (minStationary maxSteps : Nat) (choices : Nat → StepChoices) (k : Nat) :
    ∀ s0 : RunnerState, runnerLoop minStationary maxSteps choices (k + 1) s0 =
      match runnerLoop minStationary maxSteps choices k s0 with
      | .ok s => if runnerCond minStationary maxSteps s then runnerStep choices s else .ok s
      | .error e => .error e := by
  induction k with
  | zero =>
    intro s0
    simp only [runnerLoop]
    split
    · cases runnerStep choices s0 <;> rfl
    · rfl
  | succ k ih =>
    intro s0
    rw [runnerLoop]
    split
    · rename_i hc
      cases hs : runnerStep choices s0 with
      | error e => simp only [runnerLoop, hc, hs, if_true]
      | ok s1 =>
        simp only []
        rw [ih s1]
        conv => rhs; rw [runnerLoop]
        simp only [hc, hs, if_true]
    · rename_i hc
      conv => rhs; rw [runnerLoop]
      simp only [hc, Bool.false_eq_true, if_false]

theorem runnerLoop_succ_ok {minStationary maxSteps : Nat} {choices : Nat → StepChoices}
    {k : Nat} {s0 s : RunnerState}
    (h : runnerLoop minStationary maxSteps choices (k + 1) s0 = .ok s) :
    ∃ sk, runnerLoop minStationary maxSteps choices k s0 = .ok sk ∧
      ((runnerCond minStationary maxSteps sk = true ∧ runnerStep choices sk = .ok s) ∨
       (runnerCond minStationary maxSteps sk = false ∧ s = sk)) := by
  rw [runnerLoop_succ] at h
  cases hk : runnerLoop minStationary maxSteps choices k s0 with
  | error e => rw [hk] at h; cases h
  | ok sk =>
    rw [hk] at h
    refine ⟨sk, rfl, ?_⟩
    by_cases hc : runnerCond minStationary maxSteps sk = true
    · simp only [hc, if_true] at h
      exact Or.inl ⟨hc, h⟩
    · simp only [hc, if_false] at h
      injection h with h
      exact Or.inr ⟨by simpa using hc, h.symm⟩

theorem runnerStep_tstep {choices : Nat → StepChoices} {s s1 : RunnerState}
    (h : runnerStep choices s = .ok s1) : s1.tstep = s.tstep + 1 := by
  obtain ⟨_, _, _, ht, _⟩ := runnerStep_ok h
  exact ht

theorem runnerStep_ids {choices : Nat → StepChoices} {s s1 : RunnerState}
    (h : runnerStep choices s = .ok s1) : s1.model.ids = s.model.ids := by
  obtain ⟨m1, hu, hm, _⟩ := runnerStep_ok h
  rw [hm, commit_ids, frame_ids (updateOpinions_frame hu)]

theorem runnerLoop_tstep (minStationary maxSteps : Nat) (choices : Nat → StepChoices)
    (model : Model) (k : Nat) : ∀ s : RunnerState,
    runnerLoop minStationary maxSteps choices k (runnerInit model) = .ok s →
    1 ≤ s.tstep ∧ s.tstep ≤ k + 1 ∧
      runnerLoop minStationary maxSteps choices (s.tstep - 1) (runnerInit model) = .ok s := by
  induction k with
  | zero =>
    intro s h
    simp only [runnerLoop] at h
    injection h with h
    subst h
    exact ⟨Nat.le_refl _, Nat.le_refl _, rfl⟩
  | succ k ih =>
    intro s h
    obtain ⟨sk, hk, hcase⟩ := runnerLoop_succ_ok h
    obtain ⟨h1, h2, h3⟩ := ih sk hk
    rcases hcase with ⟨hc, hstep⟩ | ⟨_, hs⟩
    · have ht := runnerStep_tstep hstep
      refine ⟨by omega, by omega, ?_⟩
      have he : s.tstep - 1 = (sk.tstep - 1) + 1 := by omega
      rw [he, runnerLoop_succ, h3]
      simp only [hc, if_true]
      exact hstep
    · subst hs
      exact ⟨h1, by omega, h3⟩

theorem runnerLoop_ids (minStationary maxSteps : Nat) (choices : Nat → StepChoices)
    (model : Model) (k : Nat) : ∀ s : RunnerState,
    runnerLoop minStationary maxSteps choices k (runnerInit model) = .ok s →
    s.model.ids = model.ids := by
  induction k with
  | zero =>
    intro s h
    simp only [runnerLoop] at h
    injection h with h
    subst h
    rfl
  | succ k ih =>
    intro s h
    obtain ⟨sk, hk, hcase⟩ := runnerLoop_succ_ok h
    rcases hcase with ⟨_, hstep⟩ | ⟨_, hs⟩
    · rw [runnerStep_ids hstep]
      exact ih sk hk
    · subst hs
      exact ih s hk

theorem runnerStep_stationary {choices : Nat → StepChoices} {s s1 : RunnerState}
    (hnd : s.model.ids.Nodup) (h : runnerStep choices s = .ok s1) :
    (quietStep s.model s1.model → s1.stationary = s.stationary + 1) ∧
    (¬ quietStep s.model s1.model → s1.stationary = 0) := by
  obtain ⟨m1, hu, hm, _, hst, _⟩ := runnerStep_ok h
  have hiff := opinionsChanged_commit_iff_quiet (choices s.tstep).commit
    (updateOpinions_frame hu) hnd
  rw [← hm] at hiff
  rw [← hm] at hst
  constructor
  · intro hq
    rw [hst, if_pos (hiff.mpr hq)]
  · intro hq
    rw [hst, if_neg (fun hc => hq (hiff.mp hc))]

theorem stationary_exact (minStationary maxSteps : Nat) (choices : Nat → StepChoices)
    (model : Model) (hkeys : model.ids.Nodup) (t : Nat) : ∀ s : RunnerState,
    runnerLoop minStationary maxSteps choices t (runnerInit model) = .ok s →
    s.tstep = t + 1 →
    s.stationary ≤ t ∧
    (∀ j, t - s.stationary ≤ j → j < t → ∃ a b,
      runnerLoop minStationary maxSteps choices j (runnerInit model) = .ok a ∧
      runnerLoop minStationary maxSteps choices (j + 1) (runnerInit model) = .ok b ∧
      a.tstep = j + 1 ∧ b.tstep = j + 2 ∧ quietStep a.model b.model) ∧
    (s.stationary < t → ∃ a b,
      runnerLoop minStationary maxSteps choices (t - s.stationary - 1) (runnerInit model) = .ok a ∧
      runnerLoop minStationary maxSteps choices (t - s.stationary) (runnerInit model) = .ok b ∧
      a.tstep = t - s.stationary ∧ b.tstep = t - s.stationary + 1 ∧
      ¬ quietStep a.model b.model) := by
  induction t with
  | zero =>
    intro s h _
    simp only [runnerLoop] at h
    injection h with h
    subst h
    refine ⟨Nat.le_refl _, ?_, ?_⟩
    · intro j _ hj
      omega
    · intro hlt
      simp [runnerInit] at hlt
  | succ t ih =>
    intro s h hts
    obtain ⟨sk, hk, hcase⟩ := runnerLoop_succ_ok h
    obtain ⟨_, hle, _⟩ := runnerLoop_tstep minStationary maxSteps choices model t sk hk
    rcases hcase with ⟨_, hstep⟩ | ⟨_, hs⟩
    · have ht := runnerStep_tstep hstep
      have hskt : sk.tstep = t + 1 := by omega
      obtain ⟨ih1, ih2, ih3⟩ := ih sk hk hskt
      have hnd : sk.model.ids.Nodup := by
        rw [runnerLoop_ids minStationary maxSteps choices model t sk hk]
        exact hkeys
      obtain ⟨hq1, hq2⟩ := runnerStep_stationary hnd hstep
      by_cases hq : quietStep sk.model s.model
      · have hst := hq1 hq
        refine ⟨by omega, ?_, ?_⟩
        · intro j hj1 hj2
          by_cases hjt : j = t
          · subst hjt
            exact ⟨sk, s, hk, h, hskt, by omega, hq⟩
          · exact ih2 j (by omega) (by omega)
        · intro hlt
          have := ih3 (by omega)
          have e1 : t + 1 - s.stationary - 1 = t - sk.stationary - 1 := by omega
          have e2 : t + 1 - s.stationary = t - sk.stationary := by omega
          rw [e1, e2]
          exact this
      · have hst := hq2 hq
        refine ⟨by omega, ?_, ?_⟩
        · intro j hj1 hj2
          omega
        · intro _
          have e1 : t + 1 - s.stationary - 1 = t := by omega
          have e2 : t + 1 - s.stationary = t + 1 := by omega
          rw [e1, e2]
          exact ⟨sk, s, hk, h, hskt, by omega, hq⟩
    · subst hs
      omega

theorem getD_cons_eraseIdx_perm {α : Type} (l : List α) : ∀ (k : Nat) (d : α), k < l.length →
    (l.getD k d :: l.eraseIdx k).Perm l := by
  induction l with
  | nil => intro k d h; simp at h
  | cons a t ih =>
    intro k d h
    cases k with
    | zero => exact List.Perm.refl _
    | succ k =>
      have hk : k < t.length := by simpa using h
      have := ih k d hk
      simp only [List.getD_cons_succ, List.eraseIdx_cons_succ]
      exact (List.Perm.swap a (t.getD k d) (t.eraseIdx k)).trans (List.Perm.cons a this)

theorem rangeOrderAux_perm {α : Type} (fuel : Nat) : ∀ (choices : List Nat) (l : List α),
    l.length ≤ fuel → (rangeOrderAux fuel choices l).Perm l := by
  induction fuel with
  | zero =>
    intro choices l h
    have : l = [] := List.length_eq_zero.mp (Nat.le_zero.mp h)
    subst this
    exact List.Perm.refl _
  | succ fuel ih =>
    intro choices l h
    cases l with
    | nil => exact List.Perm.refl _
    | cons x xs =>
      simp only [rangeOrderAux]
      have hk : choices.headD 0 % (x :: xs).length < (x :: xs).length :=
        Nat.mod_lt _ (by simp)
      have hlen : ((x :: xs).eraseIdx (choices.headD 0 % (x :: xs).length)).length ≤ fuel := by
        rw [List.length_eraseIdx_of_lt hk]
        simp only [List.length_cons] at h ⊢
        omega
      exact (List.Perm.cons _ (ih choices.tail _ hlen)).trans
        (getD_cons_eraseIdx_perm (x :: xs) _ x hk)

theorem rangeOrder_perm {α : Type} (choices : List Nat) (l : List α) :
    (rangeOrder choices l).Perm l :=
  rangeOrderAux_perm l.length choices l (Nat.le_refl _)

theorem selectNodes_bound (numAgents q : Nat) (draws : List Nat) :
    ∀ (nodes0 nodes rest : List Nat),
    selectNodes numAgents q draws nodes0 = .ok (nodes, rest) →
    (∀ x ∈ nodes0, x < numAgents) → ∀ x ∈ nodes, x < numAgents := by
  induction draws with
  | nil =>
    intro nodes0 nodes rest h hb
    simp only [selectNodes] at h
    split at h
    · split at h <;> cases h
    · injection h with h
      injection h with h1 h2
      rw [← h1]
      exact hb
  | cons r rs ih =>
    intro nodes0 nodes rest h hb
    simp only [selectNodes] at h
    split at h
    · split at h
      · cases h
      · rename_i hN
        apply ih _ _ _ h
        intro x hx
        unfold setInsert at hx
        split at hx
        · exact hb x hx
        · rcases List.mem_append.mp hx with hx | hx
          · exact hb x hx
          · rw [List.mem_singleton.mp hx]
            exact Nat.mod_lt _ (Nat.pos_of_ne_zero hN)
    · injection h with h
      injection h with h1 h2
      rw [← h1]
      exact hb

theorem wellFormed_of_frame {m m1 : Model} (hf : m1.frame = m.frame) (hwf : m.WellFormed) :
    m1.WellFormed ∧ m1.agents.length = m.agents.length ∧
      m1.numUpdateNodes = m.numUpdateNodes := by
  have hlen : m1.agents.length = m.agents.length := by
    have := congrArg (fun x : Model => x.agents.length) hf
    simpa [Model.frame] using this
  have hq : m1.numUpdateNodes = m.numUpdateNodes := by
    have := congrArg Model.numUpdateNodes hf
    simpa [Model.frame] using this
  have hlook : ∀ k, (m1.agent? k).map Agent.frame = (m.agent? k).map Agent.frame := by
    intro k
    rw [← agent?_frame, ← agent?_frame, hf]
  refine ⟨⟨?_, ?_, ?_⟩, hlen, hq⟩
  · intro id hid
    have h0 := hwf.keys id (by omega)
    have h1 := hlook id
    cases hm : m1.agent? id with
    | some a => rfl
    | none =>
      rw [hm] at h1
      cases hm0 : m.agent? id with
      | none => rw [hm0] at h0; cases h0
      | some a => rw [hm0] at h1; cases h1
  · intro a ha
    have hmem : a.frame ∈ m.frame.agents := by
      rw [← hf]
      exact List.mem_map_of_mem Agent.frame ha
    obtain ⟨a0, ha0, he⟩ := List.mem_map.mp hmem
    have hn : a.neighbors = a0.neighbors := by
      have := congrArg Agent.neighbors he
      simpa [Agent.frame] using this.symm
    rw [hn, hlen]
    exact hwf.neighbors a0 ha0
  · rw [hq, hlen]
    exact hwf.picks

theorem wellFormed_commit {m : Model} (c : List Nat) (hwf : m.WellFormed) :
    (commit m c).1.WellFormed ∧ (commit m c).1.agents.length = m.agents.length ∧
      (commit m c).1.numUpdateNodes = m.numUpdateNodes := by
  have hlen : (commit m c).1.agents.length = m.agents.length := by
    simp [commit]
  refine ⟨⟨?_, ?_, ?_⟩, hlen, rfl⟩
  · intro id hid
    rw [agent?_commit]
    have h0 := hwf.keys id (by omega)
    cases hm : m.agent? id with
    | none => rw [hm] at h0; cases h0
    | some a => rfl
  · intro a ha
    obtain ⟨a0, ha0, he⟩ := List.mem_map.mp ha
    rw [hlen, ← he]
    exact hwf.neighbors a0 ha0
  · rw [hlen]
    exact hwf.picks

theorem interact_ok_of_keys (m : Model) (i j : Nat) (hi : (m.agent? i).isSome = true)
    (hj : (m.agent? j).isSome = true) : ∃ m1, interact m i j = .ok m1 := by
  cases h1 : m.agent? i with
  | none => rw [h1] at hi; cases hi
  | some a1 =>
    cases h2 : m.agent? j with
    | none => rw [h2] at hj; cases hj
    | some a2 =>
      unfold interact
      simp only [h1, h2]
      split
      · exact ⟨_, rfl⟩
      · exact ⟨_, rfl⟩

theorem updateAgent_ok (m : Model) (hwf : m.WellFormed) (i : Nat) (hi : i < m.agents.length)
    (draws : List Nat) (hd : 1 ≤ draws.length) :
    ∃ m1 rest, updateAgent m i draws = .ok (m1, rest) ∧ draws.length ≤ rest.length + 1 := by
  have hk := hwf.keys i hi
  cases h1 : m.agent? i with
  | none => rw [h1] at hk; cases hk
  | some a1 =>
    unfold updateAgent
    simp only [h1]
    split
    · exact ⟨m, draws, rfl, by omega⟩
    · rename_i hc
      cases draws with
      | nil => simp at hd
      | cons r rest =>
        simp only []
        have hsub := hwf.neighbors a1 (agent?_mem h1)
        have hcard : a1.neighbors.card ≤ m.agents.length := by
          have := Finset.card_le_card hsub
          simpa using this
        have hp : pickNeighbor a1 r < m.agents.length :=
          lt_of_lt_of_le (Nat.mod_lt _ (Nat.pos_of_ne_zero hc)) hcard
        obtain ⟨m1, hm1⟩ := interact_ok_of_keys m i (pickNeighbor a1 r) hk (hwf.keys _ hp)
        rw [hm1]
        exact ⟨m1, rest, rfl, by simp⟩

theorem updateLoop_ok (nodes : List Nat) : ∀ (m : Model) (draws : List Nat), m.WellFormed →
    (∀ x ∈ nodes, x < m.agents.length) → nodes.length ≤ draws.length →
    ∃ m1 rest, updateLoop nodes m draws = .ok (m1, rest) := by
  induction nodes with
  | nil =>
    intro m draws _ _ _
    exact ⟨m, draws, rfl⟩
  | cons x xs ih =>
    intro m draws hwf hb hlen
    simp only [List.length_cons] at hlen
    obtain ⟨m1, rest, hu, hr⟩ :=
      updateAgent_ok m hwf x (hb x (List.mem_cons_self _ _)) draws (by omega)
    obtain ⟨hwf1, hl1, _⟩ := wellFormed_of_frame (updateAgent_frame hu) hwf
    simp only [updateLoop, hu]
    apply ih m1 rest hwf1
    · intro y hy
      rw [hl1]
      exact hb y (List.mem_cons_of_mem _ hy)
    · omega

theorem updateOpinions_ok (m : Model) (hwf : m.WellFormed) (draws order : List Nat)
    (hs : sufficientDraws m.agents.length m.numUpdateNodes draws = true) :
    ∃ m1, updateOpinions m draws order = .ok m1 := by
  unfold sufficientDraws at hs
  unfold updateOpinions
  split at hs
  · rename_i nodes rest hsel
    rw [hsel]
    simp only []
    have hperm := rangeOrder_perm order nodes
    have hb := selectNodes_bound _ _ _ _ _ _ hsel (by intro x hx; cases hx)
    obtain ⟨m1, rest1, hl⟩ := updateLoop_ok (rangeOrder order nodes) m rest hwf
      (fun x hx => hb x (hperm.mem_iff.mp hx))
      (by rw [hperm.length_eq]; exact of_decide_eq_true hs)
    rw [hl]
    exact ⟨m1, rfl⟩
  · cases hs

theorem runnerStep_total {maxSteps numAgents q : Nat} (choices : Nat → StepChoices)
    (s : RunnerState) (hinv : RunnerInv maxSteps numAgents q s) (ht : s.tstep ≤ maxSteps)
    (hs : sufficientDraws numAgents q (choices s.tstep).rand = true) :
    ∃ s1, runnerStep choices s = .ok s1 ∧ RunnerInv maxSteps numAgents q s1 ∧
      s1.tstep = s.tstep + 1 := by
  rw [← hinv.size, ← hinv.picks] at hs
  obtain ⟨m1, hu⟩ := updateOpinions_ok s.model hinv.wf _ (choices s.tstep).order hs
  obtain ⟨hwf1, hl1, hq1⟩ := wellFormed_of_frame (updateOpinions_frame hu) hinv.wf
  obtain ⟨hwf2, hl2, hq2⟩ := wellFormed_commit (choices s.tstep).commit hwf1
  unfold runnerStep
  rw [hu]
  refine ⟨_, rfl, ⟨hwf2, ?_, ?_, ?_, ?_⟩, rfl⟩
  · exact (hl2.trans hl1).trans hinv.size
  · exact (hq2.trans hq1).trans hinv.picks
  · simp only [List.length_append, List.length_singleton]
    rw [hinv.snapshots]
  · simp only
    omega

theorem runnerLoop_total {minStationary maxSteps numAgents q : Nat}
    (choices : Nat → StepChoices)
    (hdraws : ∀ t, 1 ≤ t → t ≤ maxSteps → sufficientDraws numAgents q (choices t).rand = true)
    (k : Nat) : ∀ s : RunnerState, RunnerInv maxSteps numAgents q s → 1 ≤ s.tstep →
    ∃ s1, runnerLoop minStationary maxSteps choices k s = .ok s1 ∧
      RunnerInv maxSteps numAgents q s1 ∧
      (runnerCond minStationary maxSteps s1 = false ∨ s1.tstep = s.tstep + k) ∧
      (runnerCond minStationary maxSteps s = true → 0 < k → s.tstep < s1.tstep) := by
  induction k with
  | zero =>
    intro s hinv _
    exact ⟨s, rfl, hinv, Or.inr rfl, fun _ h => absurd h (Nat.lt_irrefl 0)⟩
  | succ k ih =>
    intro s hinv h1
    by_cases hc : runnerCond minStationary maxSteps s = true
    · have ht : s.tstep ≤ maxSteps := by
        unfold runnerCond at hc
        simp only [Bool.and_eq_true, decide_eq_true_eq] at hc
        exact hc.1
      obtain ⟨s1, hstep, hinv1, ht1⟩ :=
        runnerStep_total choices s hinv ht (hdraws s.tstep h1 ht)
      obtain ⟨s2, hloop, hinv2, hend, hmono⟩ := ih s1 hinv1 (by omega)
      refine ⟨s2, ?_, hinv2, ?_, ?_⟩
      · simp only [runnerLoop, hc, if_true, hstep]
        exact hloop
      · rcases hend with hend | hend
        · exact Or.inl hend
        · exact Or.inr (by omega)
      · intro _ _
        rcases hend with hend | hend
        · by_cases hk : 0 < k
          · by_cases hc1 : runnerCond minStationary maxSteps s1 = true
            · have := hmono hc1 hk
              omega
            · have he : s2 = s1 := by
                have hl : runnerLoop minStationary maxSteps choices k s1 = .ok s1 := by
                  cases k with
                  | zero => rfl
                  | succ k => simp only [runnerLoop, hc1, if_false]; rfl
                rw [hl] at hloop
                injection hloop with hloop
                exact hloop.symm
              rw [he]
              omega
          · have hk0 : k = 0 := by omega
            subst hk0
            simp only [runnerLoop] at hloop
            injection hloop with hloop
            rw [← hloop]
            omega
        · omega
    · refine ⟨s, ?_, hinv, Or.inl (by simpa using hc), fun h _ => absurd h hc⟩
      simp only [runnerLoop, hc, if_false]
      rfl

theorem selectNodes_range (numAgents q : Nat) (hq : q ≤ numAgents) (tail : List Nat) (d : Nat) :
    ∀ k, k + d = q →
    selectNodes numAgents q (List.range' k d ++ tail) (List.range k) = .ok (List.range q, tail) := by
  induction d with
  | zero =>
    intro k hk
    have hkq : k = q := by omega
    subst hkq
    simp only [List.range'_zero, List.nil_append]
    cases tail with
    | nil => simp [selectNodes]
    | cons r rs => simp [selectNodes]
  | succ d ih =>
    intro k hk
    have hlt : k < q := by omega
    have hN : numAgents ≠ 0 := by omega
    have hmod : k % numAgents = k := Nat.mod_eq_of_lt (by omega)
    have hins : setInsert k (List.range k) = List.range (k + 1) := by
      unfold setInsert
      simp [List.range_succ]
    simp only [List.range'_succ, List.cons_append, selectNodes, List.length_range, hlt, if_true,
      hN, if_false, hmod, hins]
    exact ih (k + 1) (by omega)

theorem sufficientDraws_range (numAgents q : Nat) (hq : q ≤ numAgents) :
    sufficientDraws numAgents q (List.range q ++ List.replicate q 0) = true := by
  unfold sufficientDraws
  have h := selectNodes_range numAgents q hq (List.replicate q 0) q 0 (by omega)
  rw [List.range_zero, ← List.range_eq_range'] at h
  rw [h]
  simp

theorem selectNodes_lone (draws : List Nat) : ∀ nodes : List Nat,
    nodes = [] ∨ nodes = [0] → selectNodes 1 2 draws nodes = .error .exhausted := by
  induction draws with
  | nil =>
    intro nodes h
    rcases h with h | h <;> subst h <;> rfl
  | cons r rs ih =>
    intro nodes h
    have hlt : nodes.length < 2 := by
      rcases h with h | h <;> subst h <;> decide
    simp only [selectNodes, hlt, if_true, Nat.mod_one]
    apply ih
    rcases h with h | h <;> subst h <;> exact Or.inr rfl

theorem mem_neighborsOf_modify (m : Model) (id x k y : Nat) :
    y ∈ (m.modify id (fun a => { a with neighbors := insert x a.neighbors })).neighborsOf k ↔
      y ∈ m.neighborsOf k ∨ (k = id ∧ y = x ∧ (m.agent? k).isSome = true) := by
  unfold Model.neighborsOf
  rw [agent?_modify]
  · cases h : m.agent? k with
    | none => simp
    | some a =>
      have hid : a.id = k := agent?_id h
      simp only [Option.map_some', hid, Option.isSome_some, and_true]
      by_cases hk : k = id
      · simp only [hk, if_true, Finset.mem_insert, true_and]
        exact or_comm
      · simp only [hk, if_false, false_and, or_false]
  · intro a
    rfl

theorem isSome_agent?_modify (m : Model) (id k : Nat) (f : Agent → Agent)
    (hf : ∀ a, (f a).id = a.id) :
    ((m.modify id f).agent? k).isSome = (m.agent? k).isSome := by
  rw [agent?_modify m id k f hf]
  cases m.agent? k <;> rfl

theorem mem_neighborsOf_addEdge (m : Model) (id1 id2 k y : Nat)
    (h1 : (m.agent? id1).isSome = true) (h2 : (m.agent? id2).isSome = true) :
    y ∈ (addEdge m id1 id2).neighborsOf k ↔
      y ∈ m.neighborsOf k ∨ (k = id1 ∧ y = id2) ∨ (k = id2 ∧ y = id1) := by
  unfold addEdge
  rw [mem_neighborsOf_modify, mem_neighborsOf_modify, isSome_agent?_modify]
  · constructor
    · rintro ((h | ⟨hk, hy, _⟩) | ⟨hk, hy, _⟩)
      · exact Or.inl h
      · exact Or.inr (Or.inl ⟨hk, hy⟩)
      · exact Or.inr (Or.inr ⟨hk, hy⟩)
    · rintro (h | ⟨hk, hy⟩ | ⟨hk, hy⟩)
      · exact Or.inl (Or.inl h)
      · exact Or.inl (Or.inr ⟨hk, hy, by rw [hk]; exact h1⟩)
      · exact Or.inr ⟨hk, hy, by rw [hk]; exact h2⟩
  · intro a
    rfl

theorem isSome_agent?_addEdge (m : Model) (id1 id2 k : Nat) :
    ((addEdge m id1 id2).agent? k).isSome = (m.agent? k).isSome := by
  unfold addEdge
  rw [isSome_agent?_modify, isSome_agent?_modify]
  · intro a
    rfl
  · intro a
    rfl

theorem addEdge_symmetric (m : Model) (id1 id2 : Nat)
    (h1 : (m.agent? id1).isSome = true) (h2 : (m.agent? id2).isSome = true)
    (hs : m.Symmetric) : (addEdge m id1 id2).Symmetric := by
  intro a b
  rw [mem_neighborsOf_addEdge m id1 id2 a b h1 h2, mem_neighborsOf_addEdge m id1 id2 b a h1 h2,
    hs a b]
  constructor
  · rintro (h | ⟨hk, hy⟩ | ⟨hk, hy⟩)
    · exact Or.inl h
    · exact Or.inr (Or.inr ⟨hy, hk⟩)
    · exact Or.inr (Or.inl ⟨hy, hk⟩)
  · rintro (h | ⟨hk, hy⟩ | ⟨hk, hy⟩)
    · exact Or.inl h
    · exact Or.inr (Or.inr ⟨hy, hk⟩)
    · exact Or.inr (Or.inl ⟨hy, hk⟩)

theorem addEdge_loopFree (m : Model) (id1 id2 : Nat) (hne : id1 ≠ id2)
    (h1 : (m.agent? id1).isSome = true) (h2 : (m.agent? id2).isSome = true)
    (hl : m.LoopFree) : (addEdge m id1 id2).LoopFree := by
  intro a
  rw [mem_neighborsOf_addEdge m id1 id2 a a h1 h2]
  rintro (h | ⟨hk, hy⟩ | ⟨hk, hy⟩)
  · exact hl a h
  · exact hne (hk.symm.trans hy)
  · exact hne (hy.symm.trans hk)

theorem edgeSet_addEdge (m : Model) (n id1 id2 : Nat) (hne : id1 ≠ id2)
    (hn1 : id1 < n) (hn2 : id2 < n)
    (h1 : (m.agent? id1).isSome = true) (h2 : (m.agent? id2).isSome = true) :
    edgeSet (addEdge m id1 id2) n =
      insert (if id1 < id2 then (id1, id2) else (id2, id1)) (edgeSet m n) := by
  ext ⟨a, b⟩
  simp only [edgeSet, Finset.mem_filter, Finset.mem_product, Finset.mem_range,
    Finset.mem_insert, mem_neighborsOf_addEdge m id1 id2 _ _ h1 h2]
  constructor
  · rintro ⟨⟨ha, hb⟩, hab, hmem⟩
    rcases hmem with (h | ⟨hk, hy⟩ | ⟨hk, hy⟩) | (h | ⟨hk, hy⟩ | ⟨hk, hy⟩)
    · exact Or.inr ⟨⟨ha, hb⟩, hab, Or.inl h⟩
    · subst hk; subst hy
      left
      simp [hab]
    · subst hk; subst hy
      left
      have : ¬ b < a := by omega
      simp [this]
    · exact Or.inr ⟨⟨ha, hb⟩, hab, Or.inr h⟩
    · subst hk; subst hy
      left
      have : ¬ b < a := by omega
      simp [this]
    · subst hk; subst hy
      left
      simp [hab]
  · rintro (h | ⟨⟨ha, hb⟩, hab, hmem⟩)
    · by_cases hlt : id1 < id2
      · simp only [hlt, if_true, Prod.mk.injEq] at h
        obtain ⟨rfl, rfl⟩ := h
        exact ⟨⟨hn1, hn2⟩, hlt, Or.inl (Or.inr (Or.inl ⟨rfl, rfl⟩))⟩
      · simp only [hlt, if_false, Prod.mk.injEq] at h
        obtain ⟨rfl, rfl⟩ := h
        exact ⟨⟨hn2, hn1⟩, by omega, Or.inl (Or.inr (Or.inr ⟨rfl, rfl⟩))⟩
    · rcases hmem with h | h
      · exact ⟨⟨ha, hb⟩, hab, Or.inl (Or.inl h)⟩
      · exact ⟨⟨ha, hb⟩, hab, Or.inr (Or.inl h)⟩

theorem edgeCount_addEdge (m : Model) (n id1 id2 : Nat) (hne : id1 ≠ id2)
    (hn1 : id1 < n) (hn2 : id2 < n)
    (h1 : (m.agent? id1).isSome = true) (h2 : (m.agent? id2).isSome = true)
    (hs : m.Symmetric) (hnew : id2 ∉ m.neighborsOf id1) :
    edgeCount (addEdge m id1 id2) n = edgeCount m n + 1 := by
  unfold edgeCount
  rw [edgeSet_addEdge m n id1 id2 hne hn1 hn2 h1 h2, Finset.card_insert_of_not_mem]
  have hnew2 : id1 ∉ m.neighborsOf id2 := fun h => hnew ((hs id1 id2).mpr h)
  by_cases hlt : id1 < id2
  · simp only [hlt, if_true, edgeSet, Finset.mem_filter, not_and, not_or]
    intro _ _
    exact ⟨hnew, hnew2⟩
  · simp only [hlt, if_false, edgeSet, Finset.mem_filter, not_and, not_or]
    intro _ _
    exact ⟨hnew2, hnew⟩

theorem card_allPairs (n : Nat) : (allPairs n).card = n * (n - 1) / 2 := by
  induction n with
  | zero => rfl
  | succ n ih =>
    have hsplit : allPairs (n + 1) =
        allPairs n ∪ (Finset.range n).image (fun i => (i, n)) := by
      ext ⟨a, b⟩
      simp only [allPairs, Finset.mem_filter, Finset.mem_product, Finset.mem_range,
        Finset.mem_union, Finset.mem_image, Prod.mk.injEq]
      constructor
      · rintro ⟨⟨ha, hb⟩, hab⟩
        by_cases hbn : b = n
        · exact Or.inr ⟨a, by omega, rfl, hbn.symm⟩
        · exact Or.inl ⟨⟨by omega, by omega⟩, hab⟩
      · rintro (⟨⟨ha, hb⟩, hab⟩ | ⟨i, hi, rfl, rfl⟩)
        · exact ⟨⟨by omega, by omega⟩, hab⟩
        · exact ⟨⟨by omega, by omega⟩, hi⟩
    have hdisj : Disjoint (allPairs n) ((Finset.range n).image (fun i => (i, n))) := by
      rw [Finset.disjoint_left]
      rintro ⟨a, b⟩ hp hq
      simp only [allPairs, Finset.mem_filter, Finset.mem_product, Finset.mem_range] at hp
      simp only [Finset.mem_image, Finset.mem_range, Prod.mk.injEq] at hq
      obtain ⟨i, _, _, hb⟩ := hq
      omega
    have hinj : Function.Injective (fun i : Nat => (i, n)) := by
      intro x y h
      exact (Prod.mk.inj h).1
    rw [hsplit, Finset.card_union_of_disjoint hdisj, ih, Finset.card_image_of_injective _ hinj,
      Finset.card_range]
    have hmul : (n + 1) * (n + 1 - 1) = n * (n - 1) + 2 * n := by
      cases n with
      | zero => rfl
      | succ k =>
        simp only [Nat.add_sub_cancel]
        ring
    rw [hmul, Nat.add_mul_div_left _ _ (by decide : 0 < 2)]

theorem edgeSet_subset_allPairs (m : Model) (n : Nat) : edgeSet m n ⊆ allPairs n := by
  intro p hp
  simp only [edgeSet, Finset.mem_filter] at hp
  simp only [allPairs, Finset.mem_filter]
  exact ⟨hp.1, hp.2.1⟩

theorem edgeCount_le (m : Model) (n : Nat) : edgeCount m n ≤ n * (n - 1) / 2 := by
  rw [← card_allPairs]
  exact Finset.card_le_card (edgeSet_subset_allPairs m n)

theorem netInv_addEdge {n : Nat} {s : NetState} (hinv : NetInv n s) (id1 id2 : Nat)
    (hne : id1 ≠ id2) (hn1 : id1 < n) (hn2 : id2 < n)
    (h1 : (s.model.agent? id1).isSome = true) (h2 : (s.model.agent? id2).isSome = true)
    (hnew : id2 ∉ s.model.neighborsOf id1) :
    NetInv n ⟨addEdge s.model id1 id2, s.edges + 1⟩ := by
  refine ⟨?_, ?_, ?_⟩
  · exact addEdge_symmetric _ _ _ h1 h2 hinv.symmetric
  · exact addEdge_loopFree _ _ _ hne h1 h2 hinv.loopFree
  · simp only
    rw [edgeCount_addEdge _ _ _ _ hne hn1 hn2 h1 h2 hinv.symmetric hnew, hinv.count]

theorem edgeLoop_sound {n numEdges : Nat} (draws : List (Nat × Nat)) :
    ∀ s s1 : NetState, edgeLoop n numEdges draws s = .ok s1 → NetInv n s →
    s.edges ≤ numEdges → NetInv n s1 ∧ s1.edges ≤ numEdges := by
  induction draws with
  | nil =>
    intro s s1 h hinv hle
    simp only [edgeLoop] at h
    injection h with h
    rw [← h]
    exact ⟨hinv, hle⟩
  | cons p rest ih =>
    intro s s1 h hinv hle
    obtain ⟨r1, r2⟩ := p
    rw [edgeLoop] at h
    by_cases hlt : s.edges < numEdges
    · simp only [hlt, if_true] at h
      by_cases hN : n = 0
      · simp only [hN, if_true] at h
        cases h
      · simp only [hN, if_false] at h
        have hpos : 0 < n := Nat.pos_of_ne_zero hN
        by_cases he : r1 % n = r2 % n
        · simp only [he, if_true] at h
          exact ih s s1 h hinv hle
        · simp only [he, if_false] at h
          cases ha1 : s.model.agent? (r1 % n) with
          | none => rw [ha1] at h; cases h
          | some ag1 =>
            rw [ha1] at h
            simp only [] at h
            by_cases hmem : r2 % n ∈ ag1.neighbors
            · simp only [hmem, if_true] at h
              exact ih s s1 h hinv hle
            · simp only [hmem, if_false] at h
              cases ha2 : s.model.agent? (r2 % n) with
              | none => rw [ha2] at h; cases h
              | some ag2 =>
                rw [ha2] at h
                simp only [] at h
                have hnew : r2 % n ∉ s.model.neighborsOf (r1 % n) := by
                  unfold Model.neighborsOf
                  rw [ha1]
                  exact hmem
                exact ih _ s1 h
                  (netInv_addEdge hinv _ _ he (Nat.mod_lt _ hpos) (Nat.mod_lt _ hpos)
                    (by rw [ha1]; rfl) (by rw [ha2]; rfl) hnew)
                  (by simp only; omega)
    · simp only [hlt, if_false] at h
      injection h with h
      rw [← h]
      exact ⟨hinv, hle⟩

theorem edgeLoop_cons {n numEdges : Nat} {s : NetState} (hn : 0 < n)
    (hkeys : ∀ id, id < n → (s.model.agent? id).isSome = true)
    (hlt : s.edges < numEdges) (r1 r2 : Nat) (rest : List (Nat × Nat)) :
    edgeLoop n numEdges ((r1, r2) :: rest) s =
      edgeLoop n numEdges rest
        (if r1 % n = r2 % n ∨ r2 % n ∈ s.model.neighborsOf (r1 % n) then s
         else ⟨addEdge s.model (r1 % n) (r2 % n), s.edges + 1⟩) := by
  have hN : n ≠ 0 := by omega
  have h1 := hkeys (r1 % n) (Nat.mod_lt _ hn)
  have h2 := hkeys (r2 % n) (Nat.mod_lt _ hn)
  rw [edgeLoop]
  simp only [hlt, if_true, hN, if_false]
  by_cases he : r1 % n = r2 % n
  · simp only [he, true_or, if_true]
  · simp only [he, if_false, false_or]
    cases ha1 : s.model.agent? (r1 % n) with
    | none => rw [ha1] at h1; cases h1
    | some ag1 =>
      have hnb : s.model.neighborsOf (r1 % n) = ag1.neighbors := by
        unfold Model.neighborsOf
        rw [ha1]
      rw [hnb]
      simp only []
      by_cases hmem : r2 % n ∈ ag1.neighbors
      · simp only [hmem, if_true]
      · simp only [hmem, if_false]
        cases ha2 : s.model.agent? (r2 % n) with
        | none => rw [ha2] at h2; cases h2
        | some ag2 => rfl

theorem edgeLoop_total {n numEdges : Nat} (hn : 0 < n) (draws : List (Nat × Nat)) :
    ∀ s : NetState, (∀ id, id < n → (s.model.agent? id).isSome = true) →
    ∃ s1, edgeLoop n numEdges draws s = .ok s1 := by
  induction draws with
  | nil =>
    intro s _
    exact ⟨s, rfl⟩
  | cons p rest ih =>
    intro s hkeys
    obtain ⟨r1, r2⟩ := p
    by_cases hlt : s.edges < numEdges
    · rw [edgeLoop_cons hn hkeys hlt]
      split
      · exact ih s hkeys
      · apply ih
        intro id hid
        simp only
        rw [isSome_agent?_addEdge]
        exact hkeys id hid
    · refine ⟨s, ?_⟩
      rw [edgeLoop]
      simp only [hlt, if_false]

theorem netInv_init (m : Model) (n : Nat)
    (hempty : ∀ a ∈ m.agents, a.neighbors = ∅) : NetInv n ⟨m, 0⟩ := by
  have hnb : ∀ k, m.neighborsOf k = ∅ := by
    intro k
    unfold Model.neighborsOf
    cases h : m.agent? k with
    | none => rfl
    | some a => exact hempty a (agent?_mem h)
  refine ⟨?_, ?_, ?_⟩
  · intro a b
    simp only [hnb, Finset.not_mem_empty]
  · intro a
    simp only [hnb, Finset.not_mem_empty, not_false_eq_true]
  · simp only [edgeCount, edgeSet, hnb, Finset.not_mem_empty, or_self, and_false,
      Finset.filter_False, Finset.card_empty]

theorem exists_missing_pair {n : Nat} {s : NetState} (hinv : NetInv n s)
    (hlt : s.edges < n * (n - 1) / 2) :
    ∃ i j, i < j ∧ j < n ∧ j ∉ s.model.neighborsOf i := by
  have hss : edgeSet s.model n ⊂ allPairs n := by
    refine Finset.ssubset_iff_subset_ne.mpr ⟨edgeSet_subset_allPairs _ _, ?_⟩
    intro he
    have hc := hinv.count
    unfold edgeCount at hc
    rw [he, card_allPairs] at hc
    omega
  obtain ⟨⟨i, j⟩, hp, hnp⟩ := Finset.exists_of_ssubset hss
  simp only [allPairs, Finset.mem_filter, Finset.mem_product, Finset.mem_range] at hp
  refine ⟨i, j, hp.2, hp.1.2, ?_⟩
  intro hmem
  apply hnp
  simp only [edgeSet, Finset.mem_filter, Finset.mem_product, Finset.mem_range]
  exact ⟨hp.1, hp.2, Or.inl hmem⟩

theorem edgeLoop_completes {n numEdges : Nat} (hbound : numEdges ≤ n * (n - 1) / 2) (d : Nat) :
    ∀ s : NetState, NetInv n s → (∀ id, id < n → (s.model.agent? id).isSome = true) →
    s.edges + d = numEdges →
    ∃ draws s1, edgeLoop n numEdges draws s = .ok s1 ∧ s1.edges = numEdges := by
  induction d with
  | zero =>
    intro s _ _ he
    exact ⟨[], s, rfl, he⟩
  | succ d ih =>
    intro s hinv hkeys he
    have hlt : s.edges < numEdges := by omega
    obtain ⟨i, j, hij, hj, hnew⟩ := exists_missing_pair hinv (by omega)
    have hn : 0 < n := by omega
    have hi : i < n := by omega
    obtain ⟨draws, s1, hrun, hs1⟩ :=
      ih ⟨addEdge s.model i j, s.edges + 1⟩
        (netInv_addEdge hinv i j (by omega) hi hj (hkeys i hi) (hkeys j hj) hnew)
        (by
          intro id hid
          simp only
          rw [isSome_agent?_addEdge]
          exact hkeys id hid)
        (by simp only; omega)
    refine ⟨(i, j) :: draws, s1, ?_, hs1⟩
    rw [edgeLoop_cons hn hkeys hlt, Nat.mod_eq_of_lt hi, Nat.mod_eq_of_lt hj]
    have hcond : ¬ (i = j ∨ j ∈ s.model.neighborsOf i) := by
      rw [not_or]
      exact ⟨by omega, hnew⟩
    simp only [hcond, if_false]
    exact hrun

theorem edgeLoop_done {n numEdges : Nat} (draws : List (Nat × Nat)) (s : NetState)
    (h : numEdges ≤ s.edges) : edgeLoop n numEdges draws s = .ok s := by
  cases draws with
  | nil => rfl
  | cons p rest =>
    obtain ⟨r1, r2⟩ := p
    rw [edgeLoop]
    simp only [Nat.not_lt.mpr h, if_false]

theorem edgeLoop_append {n numEdges : Nat} (d1 d2 : List (Nat × Nat)) :
    ∀ s : NetState, edgeLoop n numEdges (d1 ++ d2) s =
      match edgeLoop n numEdges d1 s with
      | .ok s1 => edgeLoop n numEdges d2 s1
      | .error e => .error e := by
  induction d1 with
  | nil =>
    intro s
    rfl
  | cons p rest ih =>
    intro s
    obtain ⟨r1, r2⟩ := p
    rw [List.cons_append, edgeLoop]
    conv => rhs; rw [edgeLoop]
    by_cases hlt : s.edges < numEdges
    · simp only [hlt, if_true]
      by_cases hN : n = 0
      · simp only [hN, if_true]
      · simp only [hN, if_false]
        by_cases he : r1 % n = r2 % n
        · simp only [he, if_true]
          exact ih s
        · simp only [he, if_false]
          cases ha1 : s.model.agent? (r1 % n) with
          | none => rfl
          | some ag1 =>
            simp only []
            by_cases hmem : r2 % n ∈ ag1.neighbors
            · simp only [hmem, if_true]
              exact ih s
            · simp only [hmem, if_false]
              cases ha2 : s.model.agent? (r2 % n) with
              | none => rfl
              | some ag2 =>
                simp only []
                exact ih _
    · simp only [hlt, if_false]
      exact (edgeLoop_done d2 s (Nat.not_lt.mp hlt)).symm

theorem eraseIdx_map {α β : Type} (f : α → β) (l : List α) :
    ∀ k : Nat, (l.map f).eraseIdx k = (l.eraseIdx k).map f := by
  induction l with
  | nil => intro k; rfl
  | cons a t ih =>
    intro k
    cases k with
    | zero => rfl
    | succ k => simp only [List.map_cons, List.eraseIdx_cons_succ, ih]

theorem rangeOrderAux_map {α β : Type} (f : α → β) (fuel : Nat) :
    ∀ (choices : List Nat) (l : List α),
    rangeOrderAux fuel choices (l.map f) = (rangeOrderAux fuel choices l).map f := by
  induction fuel with
  | zero => intro choices l; rfl
  | succ fuel ih =>
    intro choices l
    cases l with
    | nil => rfl
    | cons x xs =>
      simp only [List.map_cons, rangeOrderAux, List.length_cons, List.length_map]
      rw [← List.map_cons, List.getD_map, eraseIdx_map, ih]

theorem rangeOrder_map {α β : Type} (f : α → β) (choices : List Nat) (l : List α) :
    rangeOrder choices (l.map f) = (rangeOrder choices l).map f := by
  unfold rangeOrder
  rw [List.length_map]
  exact rangeOrderAux_map f l.length choices l

theorem commit_fst (m : Model) (c : List Nat) :
    (commit m c).1 = { m with agents := m.agents.map commitAgent } := rfl

theorem commit_snd (m : Model) (c : List Nat) :
    (commit m c).2 = (rangeOrder c m.agents).map Agent.new_opinion := rfl

theorem updateAgent_isolated (m : Model) (i : Nat) (draws : List Nat)
    (hi : (m.agent? i).isSome = true) (hempty : ∀ a ∈ m.agents, a.neighbors = ∅) :
    updateAgent m i draws = .ok (m, draws) := by
  cases h : m.agent? i with
  | none => rw [h] at hi; cases hi
  | some a =>
    have hc : a.neighbors.card = 0 := by
      rw [hempty a (agent?_mem h)]
      rfl
    unfold updateAgent
    simp only [h, hc, if_true]

theorem updateLoop_isolated (m : Model) (draws : List Nat)
    (hempty : ∀ a ∈ m.agents, a.neighbors = ∅) (nodes : List Nat)
    (hkeys : ∀ i ∈ nodes, (m.agent? i).isSome = true) :
    updateLoop nodes m draws = .ok (m, draws) := by
  induction nodes with
  | nil => rfl
  | cons x xs ih =>
    simp only [updateLoop,
      updateAgent_isolated m x draws (hkeys x (List.mem_cons_self _ _)) hempty]
    exact ih (fun i hi => hkeys i (List.mem_cons_of_mem _ hi))

theorem updateOpinions_isolated (m : Model) (draws order : List Nat)
    (hkeys : ∀ id, id < m.agents.length → (m.agent? id).isSome = true)
    (hempty : ∀ a ∈ m.agents, a.neighbors = ∅)
    (hsel : selectionEnds m.agents.length m.numUpdateNodes draws = true) :
    updateOpinions m draws order = .ok m := by
  unfold selectionEnds at hsel
  unfold updateOpinions
  split at hsel
  · rename_i res hres
    obtain ⟨nodes, rest⟩ := res
    rw [hres]
    simp only []
    have hb := selectNodes_bound _ _ _ _ _ _ hres (by intro x hx; cases hx)
    rw [updateLoop_isolated m rest hempty (rangeOrder order nodes)
      (fun i hi => hkeys i (hb i ((rangeOrder_perm order nodes).mem_iff.mp hi)))]
  · cases hsel

theorem paramOpinionDiffEpsilon_nonneg : (0 : ℚ) ≤ paramOpinionDiffEpsilon := by
  unfold paramOpinionDiffEpsilon
  norm_num

theorem commitAgent_idem (a : Agent) (h : a.new_opinion = a.current_opinion) :
    commitAgent (commitAgent a) = commitAgent a := by
  simp only [commitAgent, h]

theorem commit_commit (m : Model) (c : List Nat)
    (hnew : ∀ a ∈ m.agents, a.new_opinion = a.current_opinion) :
    (commit (commit m []).1 c).1 = (commit m []).1 := by
  simp only [commit_fst, List.map_map]
  congr 1
  apply List.map_congr_left
  intro a ha
  exact commitAgent_idem a (hnew a ha)

theorem opinionsChanged_commit_of_new (m : Model) (c : List Nat)
    (hnew : ∀ a ∈ m.agents, a.new_opinion = a.current_opinion) :
    opinionsChanged (commit m c).1 = true := by
  unfold opinionsChanged
  rw [opinionsChangedLoop_iff]
  intro b hb
  rw [commit_fst] at hb
  obtain ⟨a, ha, hab⟩ := List.mem_map.mp hb
  rw [← hab]
  simp only [commitAgent, hnew a ha, sub_self, abs_zero]
  exact paramOpinionDiffEpsilon_nonneg

theorem commit_keys (m : Model) (c : List Nat)
    (hkeys : ∀ id, id < m.agents.length → (m.agent? id).isSome = true) :
    ∀ id, id < (commit m c).1.agents.length → ((commit m c).1.agent? id).isSome = true := by
  intro id hid
  rw [agent?_commit]
  have hlen : (commit m c).1.agents.length = m.agents.length := by simp [commit]
  have h0 := hkeys id (by omega)
  cases hm : m.agent? id with
  | none => rw [hm] at h0; cases h0
  | some a => rfl

theorem commit_empty (m : Model) (c : List Nat) (hempty : ∀ a ∈ m.agents, a.neighbors = ∅) :
    ∀ a ∈ (commit m c).1.agents, a.neighbors = ∅ := by
  intro b hb
  rw [commit_fst] at hb
  obtain ⟨a, ha, hab⟩ := List.mem_map.mp hb
  rw [← hab]
  exact hempty a ha

theorem commit_new_eq_current (m : Model) (c : List Nat) :
    ∀ a ∈ (commit m c).1.agents, a.new_opinion = a.current_opinion := by
  intro b hb
  rw [commit_fst] at hb
  obtain ⟨a, ha, hab⟩ := List.mem_map.mp hb
  rw [← hab]
  rfl

theorem isolated_snapshot (m : Model) (c : List Nat)
    (hnew : ∀ a ∈ m.agents, a.new_opinion = a.current_opinion) :
    (commit m c).2 = (rangeOrder c m.agents).map Agent.current_opinion ∧
    (commit (commit m []).1 c).2 = (rangeOrder c m.agents).map Agent.current_opinion := by
  constructor
  · rw [commit_snd]
    apply List.map_congr_left
    intro a ha
    exact hnew a ((rangeOrder_perm c m.agents).mem_iff.mp ha)
  · rw [commit_snd, commit_fst]
    simp only []
    rw [rangeOrder_map, List.map_map]
    apply List.map_congr_left
    intro a ha
    exact hnew a ((rangeOrder_perm c m.agents).mem_iff.mp ha)

theorem isolated_step {minStationary : Nat} (choices : Nat → StepChoices) (model : Model)
    (hkeys : ∀ id, id < model.agents.length → (model.agent? id).isSome = true)
    (hempty : ∀ a ∈ model.agents, a.neighbors = ∅)
    (hnew : ∀ a ∈ model.agents, a.new_opinion = a.current_opinion)
    (hdraws : ∀ t, 1 ≤ t → t ≤ minStationary →
      selectionEnds model.agents.length model.numUpdateNodes (choices t).rand = true)
    (s : RunnerState) (hinv : IsolatedInv minStationary choices model s)
    (ht : s.tstep ≤ minStationary) :
    ∃ s1, runnerStep choices s = .ok s1 ∧ IsolatedInv minStationary choices model s1 ∧
      s1.tstep = s.tstep + 1 := by
  have h1 : 1 ≤ s.tstep := by
    have := hinv.size
    omega
  have hsel := hdraws s.tstep h1 ht
  have hu : updateOpinions s.model (choices s.tstep).rand (choices s.tstep).order =
      .ok s.model := by
    rcases hinv.state with hs | hs
    · rw [hs]
      exact updateOpinions_isolated model _ _ hkeys hempty hsel
    · rw [hs]
      exact updateOpinions_isolated _ _ _ (commit_keys model [] hkeys)
        (commit_empty model [] hempty) (by simpa [commit] using hsel)
  have hmodel : (commit s.model (choices s.tstep).commit).1 = (commit model []).1 := by
    rcases hinv.state with hs | hs
    · rw [hs]
      rfl
    · rw [hs]
      exact commit_commit model _ hnew
  have hchanged : opinionsChanged (commit s.model (choices s.tstep).commit).1 = true := by
    rw [hmodel]
    exact opinionsChanged_commit_of_new model [] hnew
  have hsnap : (commit s.model (choices s.tstep).commit).2 =
      (rangeOrder (choices s.tstep).commit model.agents).map Agent.current_opinion := by
    rcases hinv.state with hs | hs
    · rw [hs]
      exact (isolated_snapshot model _ hnew).1
    · rw [hs]
      exact (isolated_snapshot model _ hnew).2
  refine ⟨{ model := (commit s.model (choices s.tstep).commit).1
            tstep := s.tstep + 1
            stationary := s.stationary + 1
            data := s.data ++ [(commit s.model (choices s.tstep).commit).2] }, ?_, ?_, rfl⟩
  · unfold runnerStep
    rw [hu]
    simp only [hchanged, if_true]
  · refine ⟨Or.inr hmodel, ?_, ?_, ?_, ?_⟩
    · simp only
      rw [hinv.stationary]
    · simp only
      omega
    · simp only [List.length_append, List.length_singleton]
      rw [hinv.size]
    · intro t ht1
      simp only [List.length_append, List.length_singleton] at ht1
      simp only
      by_cases hlt : t < s.data.length
      · rw [List.getElem?_append_left hlt]
        exact hinv.snapshots t hlt
      · have ht2 : t = s.data.length := by omega
        have ht3 : t + 1 = s.tstep := by
          have := hinv.size
          omega
        rw [ht2, List.getElem?_append_right (Nat.le_refl _), Nat.sub_self, hsnap]
        rw [ht2] at ht3
        rw [ht3]
        rfl

theorem isolated_loop {minStationary maxSteps : Nat} (choices : Nat → StepChoices)
    (model : Model)
    (hkeys : ∀ id, id < model.agents.length → (model.agent? id).isSome = true)
    (hempty : ∀ a ∈ model.agents, a.neighbors = ∅)
    (hnew : ∀ a ∈ model.agents, a.new_opinion = a.current_opinion)
    (hmax : minStationary ≤ maxSteps)
    (hdraws : ∀ t, 1 ≤ t → t ≤ minStationary →
      selectionEnds model.agents.length model.numUpdateNodes (choices t).rand = true)
    (k : Nat) : ∀ s : RunnerState, IsolatedInv minStationary choices model s →
    ∃ s1, runnerLoop minStationary maxSteps choices k s = .ok s1 ∧
      IsolatedInv minStationary choices model s1 ∧
      (s1.tstep = minStationary + 1 ∨ s1.tstep = s.tstep + k) := by
  induction k with
  | zero =>
    intro s hinv
    exact ⟨s, rfl, hinv, Or.inr rfl⟩
  | succ k ih =>
    intro s hinv
    by_cases ht : s.tstep ≤ minStationary
    · have hc : runnerCond minStationary maxSteps s = true := by
        simp only [runnerCond, Bool.and_eq_true, decide_eq_true_eq]
        have := hinv.stationary
        exact ⟨by omega, by omega⟩
      obtain ⟨s1, hstep, hinv1, ht1⟩ :=
        isolated_step choices model hkeys hempty hnew hdraws s hinv ht
      obtain ⟨s2, hloop, hinv2, hend⟩ := ih s1 hinv1
      refine ⟨s2, ?_, hinv2, ?_⟩
      · simp only [runnerLoop, hc, if_true, hstep]
        exact hloop
      · rcases hend with hend | hend
        · exact Or.inl hend
        · exact Or.inr (by omega)
    · have hc : ¬ runnerCond minStationary maxSteps s = true := by
        simp only [runnerCond, Bool.and_eq_true, decide_eq_true_eq, not_and, not_lt]
        intro _
        have := hinv.stationary
        omega
      refine ⟨s, ?_, hinv, Or.inl ?_⟩
      · simp only [runnerLoop, hc, if_false]
        rfl
      · have := hinv.bound
        omega

theorem newAgents_eq (x : Nat → ℚ) (c a : ℚ) (q : Nat) (n : Nat) :
    newAgents x n ⟨[], c, a, q⟩ =
      ⟨(List.range n).map (fun k => freshAgent k (x k) ∅), c, a, q⟩ := by
  induction n with
  | zero => rfl
  | succ k ih =>
    rw [newAgents, ih]
    unfold Model.addAgent
    have hany : ((List.range k).map (fun i => freshAgent i (x i) ∅)).any
        (fun b => decide (b.id = k)) = false := by
      rw [List.any_eq_false]
      intro b hb
      obtain ⟨i, hi, hib⟩ := List.mem_map.mp hb
      rw [← hib]
      have : i < k := List.mem_range.mp hi
      simp only [freshAgent, decide_eq_true_eq]
      omega
    simp only [hany, Bool.false_eq_true, if_false, List.range_succ, List.map_append,
      List.map_cons, List.map_nil]
    rfl

theorem NewModel_zero_edges (n : Nat) (c a : ℚ) (q : Nat) (x : Nat → ℚ)
    (draws : List (Nat × Nat)) :
    NewModel n c a q x 0 draws =
      .ok ⟨(List.range n).map (fun k => freshAgent k (x k) ∅), c, a, q⟩ := by
  unfold NewModel initializeNetwork
  rw [edgeLoop_done draws ⟨newAgents x n ⟨[], c, a, q⟩, 0⟩ (Nat.le_refl 0), newAgents_eq]
  rfl

theorem setInsert_nodup (x : Nat) (l : List Nat) (h : l.Nodup) : (setInsert x l).Nodup := by
  unfold setInsert
  split
  · exact h
  · rename_i hx
    rw [List.nodup_append]
    refine ⟨h, List.nodup_singleton x, ?_⟩
    intro a ha hb
    rw [List.mem_singleton.mp hb] at ha
    exact hx ha

theorem length_le_of_nodup_bounded (l : List Nat) (n : Nat) (hnd : l.Nodup)
    (hb : ∀ x ∈ l, x < n) : l.length ≤ n := by
  have hsub : l.toFinset ⊆ Finset.range n := by
    intro x hx
    exact Finset.mem_range.mpr (hb x (List.mem_toFinset.mp hx))
  have := Finset.card_le_card hsub
  rwa [List.toFinset_card_of_nodup hnd, Finset.card_range] at this

theorem selectNodes_overfull (numAgents q : Nat) (hq : numAgents < q) (draws : List Nat) :
    ∀ nodes : List Nat, nodes.Nodup → (∀ x ∈ nodes, x < numAgents) →
    selectNodes numAgents q draws nodes =
      .error (if numAgents = 0 then .panic else .exhausted) := by
  induction draws with
  | nil =>
    intro nodes hnd hb
    have hlen := length_le_of_nodup_bounded nodes numAgents hnd hb
    have hlt : nodes.length < q := by omega
    simp only [selectNodes, hlt, if_true]
    split <;> rfl
  | cons r rs ih =>
    intro nodes hnd hb
    have hlen := length_le_of_nodup_bounded nodes numAgents hnd hb
    have hlt : nodes.length < q := by omega
    simp only [selectNodes, hlt, if_true]
    by_cases hN : numAgents = 0
    · simp only [hN, if_true]
    · simp only [hN, if_false]
      have := ih (setInsert (r % numAgents) nodes) (setInsert_nodup _ _ hnd) (by
        intro y hy
        unfold setInsert at hy
        split at hy
        · exact hb y hy
        · rcases List.mem_append.mp hy with hy | hy
          · exact hb y hy
          · rw [List.mem_singleton.mp hy]
            exact Nat.mod_lt _ (Nat.pos_of_ne_zero hN))
      simpa [hN] using this

theorem updateOpinions_overfull (m : Model) (hq : m.agents.length < m.numUpdateNodes)
    (draws order : List Nat) :
    updateOpinions m draws order =
      .error (if m.agents.length = 0 then .panic else .exhausted) := by
  unfold updateOpinions
  rw [selectNodes_overfull _ _ hq draws [] List.nodup_nil (by intro x hx; cases hx)]

theorem frame_topology {m m1 : Model} (h : m1.frame = m.frame) : m1.topology = m.topology := by
  have h1 : ∀ x : Model, x.frame.topology = x.topology := by
    intro x
    simp [Model.topology, Model.frame, Agent.frame, Function.comp]
  rw [← h1 m1, ← h1 m, h]

theorem commit_topology (m : Model) (c : List Nat) : (commit m c).1.topology = m.topology := by
  simp [Model.topology, commit, commitAgent, Function.comp]

theorem frame_params {m m1 : Model} (h : m1.frame = m.frame) :
    m1.confidence = m.confidence ∧ m1.alpha = m.alpha ∧
      m1.numUpdateNodes = m.numUpdateNodes := by
  have h1 := congrArg Model.confidence h
  have h2 := congrArg Model.alpha h
  have h3 := congrArg Model.numUpdateNodes h
  exact ⟨h1, h2, h3⟩

theorem runnerStep_topology {choices : Nat → StepChoices} {s s1 : RunnerState}
    (h : runnerStep choices s = .ok s1) :
    s1.model.topology = s.model.topology ∧ s1.model.ids = s.model.ids ∧
      s1.model.confidence = s.model.confidence ∧ s1.model.alpha = s.model.alpha ∧
      s1.model.numUpdateNodes = s.model.numUpdateNodes := by
  obtain ⟨m1, hu, hm, _⟩ := runnerStep_ok h
  have hf := updateOpinions_frame hu
  obtain ⟨p1, p2, p3⟩ := frame_params hf
  rw [hm]
  exact ⟨(commit_topology m1 _).trans (frame_topology hf),
    (commit_ids m1 _).trans (frame_ids hf), p1, p2, p3⟩

theorem runnerLoop_topology (minStationary maxSteps : Nat) (choices : Nat → StepChoices)
    (model : Model) (k : Nat) : ∀ s : RunnerState,
    runnerLoop minStationary maxSteps choices k (runnerInit model) = .ok s →
    s.model.topology = model.topology ∧ s.model.ids = model.ids ∧
      s.model.confidence = model.confidence ∧ s.model.alpha = model.alpha ∧
      s.model.numUpdateNodes = model.numUpdateNodes := by
  induction k with
  | zero =>
    intro s h
    simp only [runnerLoop] at h
    injection h with h
    subst h
    exact ⟨rfl, rfl, rfl, rfl, rfl⟩
  | succ k ih =>
    intro s h
    obtain ⟨sk, hk, hcase⟩ := runnerLoop_succ_ok h
    obtain ⟨i1, i2, i3, i4, i5⟩ := ih sk hk
    rcases hcase with ⟨_, hstep⟩ | ⟨_, hs⟩
    · obtain ⟨t1, t2, t3, t4, t5⟩ := runnerStep_topology hstep
      exact ⟨t1.trans i1, t2.trans i2, t3.trans i3, t4.trans i4, t5.trans i5⟩
    · subst hs
      exact ⟨i1, i2, i3, i4, i5⟩

theorem runnerStep_snapshot {choices : Nat → StepChoices} {s s1 : RunnerState}
    (h : runnerStep choices s = .ok s1) :
    s1.data = s.data ++
      [(rangeOrder (choices s.tstep).commit s1.model.agents).map Agent.current_opinion] := by
  obtain ⟨m1, _, hm, _, _, hd⟩ := runnerStep_ok h
  rw [hd, hm, commit_fst, commit_snd]
  simp only []
  rw [rangeOrder_map, List.map_map]
  rfl

theorem runnerLoop_data (minStationary maxSteps : Nat) (choices : Nat → StepChoices)
    (model : Model) (k : Nat) : ∀ s : RunnerState,
    runnerLoop minStationary maxSteps choices k (runnerInit model) = .ok s →
    s.data.length + 1 = s.tstep ∧
    ∀ j, j < s.data.length → ∃ sj,
      runnerLoop minStationary maxSteps choices (j + 1) (runnerInit model) = .ok sj ∧
      sj.tstep = j + 2 ∧
      s.data[j]? = some ((rangeOrder (choices (j + 1)).commit sj.model.agents).map
        Agent.current_opinion) := by
  induction k with
  | zero =>
    intro s h
    simp only [runnerLoop] at h
    injection h with h
    subst h
    refine ⟨rfl, ?_⟩
    intro j hj
    simp [runnerInit] at hj
  | succ k ih =>
    intro s h
    obtain ⟨sk, hk, hcase⟩ := runnerLoop_succ_ok h
    obtain ⟨ilen, isnap⟩ := ih sk hk
    rcases hcase with ⟨_, hstep⟩ | ⟨_, hs⟩
    · have ht := runnerStep_tstep hstep
      have hd := runnerStep_snapshot hstep
      obtain ⟨_, _, hself⟩ := runnerLoop_tstep minStationary maxSteps choices model (k + 1) s h
      have hlen : s.data.length = sk.data.length + 1 := by
        rw [hd]
        simp
      refine ⟨by omega, ?_⟩
      intro j hj
      by_cases hlt : j < sk.data.length
      · obtain ⟨sj, h1, h2, h3⟩ := isnap j hlt
        refine ⟨sj, h1, h2, ?_⟩
        rw [hd, List.getElem?_append_left hlt]
        exact h3
      · have hj2 : j = sk.data.length := by omega
        have hj3 : j + 1 = sk.tstep := by omega
        have hj4 : s.tstep - 1 = j + 1 := by omega
        refine ⟨s, ?_, by omega, ?_⟩
        · rw [← hj4]
          exact hself
        · rw [hd, hj2, List.getElem?_append_right (Nat.le_refl _), Nat.sub_self, ← ilen]
          rfl
    · subst hs
      exact ⟨ilen, isnap⟩

theorem edgeLoop_single (numEdges : Nat) (draws : List (Nat × Nat)) (s : NetState) :
    edgeLoop 1 numEdges draws s = .ok s := by
  induction draws with
  | nil => rfl
  | cons p rest ih =>
    obtain ⟨r1, r2⟩ := p
    rw [edgeLoop]
    by_cases hlt : s.edges < numEdges
    · simp only [hlt, if_true, Nat.mod_one, if_false, one_ne_zero]
      exact ih
    · simp only [hlt, if_false]

theorem modify_neighbors_strip (m : Model) (id : Nat) (f : Agent → Agent)
    (hf : ∀ a, ({ f a with neighbors := ∅ } : Agent) = { a with neighbors := ∅ }) :
    (m.modify id f).agents.map (fun a => ({ a with neighbors := ∅ } : Agent)) =
      m.agents.map (fun a => ({ a with neighbors := ∅ } : Agent)) := by
  unfold Model.modify
  simp only [List.map_map]
  apply List.map_congr_left
  intro a _
  simp only [Function.comp]
  split
  · exact hf a
  · rfl

theorem addEdge_strip (m : Model) (id1 id2 : Nat) :
    (addEdge m id1 id2).agents.map (fun a => ({ a with neighbors := ∅ } : Agent)) =
      m.agents.map (fun a => ({ a with neighbors := ∅ } : Agent)) := by
  unfold addEdge
  rw [modify_neighbors_strip, modify_neighbors_strip]
  · intro a
    rfl
  · intro a
    rfl

theorem edgeLoop_strip {n numEdges : Nat} (draws : List (Nat × Nat)) :
    ∀ s s1 : NetState, edgeLoop n numEdges draws s = .ok s1 →
    s1.model.agents.map (fun a => ({ a with neighbors := ∅ } : Agent)) =
      s.model.agents.map (fun a => ({ a with neighbors := ∅ } : Agent)) ∧
    s1.model.confidence = s.model.confidence ∧ s1.model.alpha = s.model.alpha ∧
    s1.model.numUpdateNodes = s.model.numUpdateNodes := by
  induction draws with
  | nil =>
    intro s s1 h
    simp only [edgeLoop] at h
    injection h with h
    rw [← h]
    exact ⟨rfl, rfl, rfl, rfl⟩
  | cons p rest ih =>
    intro s s1 h
    obtain ⟨r1, r2⟩ := p
    rw [edgeLoop] at h
    by_cases hlt : s.edges < numEdges
    · simp only [hlt, if_true] at h
      by_cases hN : n = 0
      · simp only [hN, if_true] at h
        cases h
      · simp only [hN, if_false] at h
        by_cases he : r1 % n = r2 % n
        · simp only [he, if_true] at h
          exact ih s s1 h
        · simp only [he, if_false] at h
          cases ha1 : s.model.agent? (r1 % n) with
          | none => rw [ha1] at h; cases h
          | some ag1 =>
            rw [ha1] at h
            simp only [] at h
            by_cases hmem : r2 % n ∈ ag1.neighbors
            · simp only [hmem, if_true] at h
              exact ih s s1 h
            · simp only [hmem, if_false] at h
              cases ha2 : s.model.agent? (r2 % n) with
              | none => rw [ha2] at h; cases h
              | some ag2 =>
                rw [ha2] at h
                simp only [] at h
                obtain ⟨i1, i2, i3, i4⟩ := ih _ s1 h
                exact ⟨i1.trans (addEdge_strip s.model _ _), i2, i3, i4⟩
    · simp only [hlt, if_false] at h
      injection h with h
      rw [← h]
      exact ⟨rfl, rfl, rfl, rfl⟩

theorem initializeNetwork_ok_edgeLoop {m m1 : Model} {n numEdges : Nat}
    {draws : List (Nat × Nat)} (h : initializeNetwork m n numEdges draws = .ok m1) :
    ∃ s1, edgeLoop n numEdges draws ⟨m, 0⟩ = .ok s1 ∧ s1.model = m1 := by
  unfold initializeNetwork at h
  cases h1 : edgeLoop n numEdges draws ⟨m, 0⟩ with
  | error e => rw [h1] at h; cases h
  | ok s1 =>
    rw [h1] at h
    simp only at h
    split at h
    · split at h <;> cases h
    · injection h with h
      exact ⟨s1, rfl, h⟩

theorem NewModel_new_eq_current {n : Nat} {c a : ℚ} {q : Nat} {x : Nat → ℚ} {numEdges : Nat}
    {draws : List (Nat × Nat)} {model : Model}
    (h : NewModel n c a q x numEdges draws = .ok model) :
    ∀ b ∈ model.agents, b.new_opinion = b.current_opinion ∧
      b.previous_opinion = b.current_opinion := by
  unfold NewModel at h
  obtain ⟨s1, h1, hm⟩ := initializeNetwork_ok_edgeLoop h
  obtain ⟨hstrip, _⟩ := edgeLoop_strip draws _ s1 h1
  rw [hm, newAgents_eq] at hstrip
  intro b hb
  have hmem : ({ b with neighbors := ∅ } : Agent) ∈
      model.agents.map (fun a => ({ a with neighbors := ∅ } : Agent)) :=
    List.mem_map_of_mem _ hb
  rw [hstrip] at hmem
  simp only [List.map_map, List.mem_map, Function.comp, List.mem_range] at hmem
  obtain ⟨k, _, hk⟩ := hmem
  have e1 := congrArg Agent.new_opinion hk
  have e2 := congrArg Agent.current_opinion hk
  have e3 := congrArg Agent.previous_opinion hk
  simp only [freshAgent] at e1 e2 e3
  exact ⟨e1.symm.trans e2, e3.symm.trans e2⟩

theorem runnerLoop_new_eq_current (minStationary maxSteps : Nat) (choices : Nat → StepChoices)
    (model : Model) (hnew : ∀ b ∈ model.agents, b.new_opinion = b.current_opinion) (k : Nat) :
    ∀ s : RunnerState,
    runnerLoop minStationary maxSteps choices k (runnerInit model) = .ok s →
    ∀ b ∈ s.model.agents, b.new_opinion = b.current_opinion := by
  induction k with
  | zero =>
    intro s h
    simp only [runnerLoop] at h
    injection h with h
    subst h
    exact hnew
  | succ k ih =>
    intro s h
    obtain ⟨sk, hk, hcase⟩ := runnerLoop_succ_ok h
    rcases hcase with ⟨_, hstep⟩ | ⟨_, hs⟩
    · obtain ⟨m1, _, hm, _⟩ := runnerStep_ok hstep
      rw [hm]
      exact commit_new_eq_current m1 _
    · subst hs
      exact ih s hk

theorem runnerStep_commit {choices : Nat → StepChoices} {s s1 : RunnerState}
    (h : runnerStep choices s = .ok s1) (id : Nat) (a b : Agent)
    (ha : s.model.agent? id = some a) (hb : s1.model.agent? id = some b) :
    b.previous_opinion = a.current_opinion ∧ b.current_opinion = b.new_opinion := by
  obtain ⟨m1, hu, hm, _⟩ := runnerStep_ok h
  have hf := updateOpinions_frame hu
  have hlook : (m1.agent? id).map Agent.frame = (s.model.agent? id).map Agent.frame := by
    rw [← agent?_frame, ← agent?_frame, hf]
  rw [hm, agent?_commit] at hb
  cases h1 : m1.agent? id with
  | none => rw [h1] at hb; cases hb
  | some a1 =>
    rw [h1] at hb
    rw [h1, ha] at hlook
    simp only [Option.map_some', Option.some.injEq] at hb hlook
    have hcur : a1.current_opinion = a.current_opinion := by
      have := congrArg Agent.current_opinion hlook
      simpa [Agent.frame] using this
    rw [← hb]
    exact ⟨hcur, rfl⟩

theorem selectNodes_ne_panic (numAgents q : Nat) (hN : numAgents ≠ 0) (draws : List Nat) :
    ∀ nodes : List Nat, selectNodes numAgents q draws nodes ≠ .error .panic := by
  induction draws with
  | nil =>
    intro nodes h
    simp only [selectNodes, hN, if_false] at h
    split at h <;> cases h
  | cons r rs ih =>
    intro nodes h
    simp only [selectNodes, hN, if_false] at h
    split at h
    · exact ih _ h
    · cases h

theorem updateAgent_ne_panic (m : Model) (hwf : m.WellFormed) (i : Nat)
    (hi : i < m.agents.length) (draws : List Nat) :
    updateAgent m i draws ≠ .error .panic := by
  cases draws with
  | nil =>
    have hk := hwf.keys i hi
    cases h1 : m.agent? i with
    | none => rw [h1] at hk; cases hk
    | some a1 =>
      unfold updateAgent
      simp only [h1]
      split
      · intro h
        cases h
      · intro h
        cases h
  | cons r rest =>
    obtain ⟨m1, rest1, h, _⟩ := updateAgent_ok m hwf i hi (r :: rest) (by simp)
    rw [h]
    intro h2
    cases h2

theorem updateLoop_ne_panic (nodes : List Nat) : ∀ (m : Model) (draws : List Nat),
    m.WellFormed → (∀ x ∈ nodes, x < m.agents.length) →
    updateLoop nodes m draws ≠ .error .panic := by
  induction nodes with
  | nil =>
    intro m draws _ _ h
    cases h
  | cons x xs ih =>
    intro m draws hwf hb
    have hne := updateAgent_ne_panic m hwf x (hb x (List.mem_cons_self _ _)) draws
    simp only [updateLoop]
    cases hu : updateAgent m x draws with
    | error e =>
      simp only []
      intro h
      injection h with h
      rw [hu, h] at hne
      exact hne rfl
    | ok res =>
      obtain ⟨m1, d1⟩ := res
      simp only []
      obtain ⟨hwf1, hl1, _⟩ := wellFormed_of_frame (updateAgent_frame hu) hwf
      apply ih m1 d1 hwf1
      intro y hy
      rw [hl1]
      exact hb y (List.mem_cons_of_mem _ hy)

theorem updateOpinions_ne_panic (m : Model) (hwf : m.WellFormed) (hN : m.agents.length ≠ 0)
    (draws order : List Nat) : updateOpinions m draws order ≠ .error .panic := by
  unfold updateOpinions
  cases hsel : selectNodes m.agents.length m.numUpdateNodes draws [] with
  | error e =>
    simp only []
    intro h
    injection h with h
    rw [h] at hsel
    exact selectNodes_ne_panic _ _ hN draws [] hsel
  | ok res =>
    obtain ⟨nodes, rest⟩ := res
    simp only []
    have hb := selectNodes_bound _ _ _ _ _ _ hsel (by intro x hx; cases hx)
    have hl := updateLoop_ne_panic (rangeOrder order nodes) m rest hwf
      (fun x hx => hb x ((rangeOrder_perm order nodes).mem_iff.mp hx))
    cases hloop : updateLoop (rangeOrder order nodes) m rest with
    | error e =>
      simp only []
      intro h
      injection h with h
      rw [h] at hloop
      exact hl hloop
    | ok res2 =>
      simp only []
      intro h
      cases h

theorem card_neighbors_le (m : Model) (a : Agent) (ha : a ∈ m.agents)
    (hids : ∀ id, (m.agent? id).isSome = true ↔ id < m.agents.length)
    (hsub : a.neighbors ⊆ Finset.range m.agents.length) (hloop : a.id ∉ a.neighbors) :
    a.neighbors.card ≤ m.agents.length - 1 := by
  have hid : a.id < m.agents.length := by
    apply (hids a.id).mp
    unfold Model.agent?
    rw [List.find?_isSome]
    exact ⟨a, ha, by simp⟩
  have hsub2 : a.neighbors ⊆ (Finset.range m.agents.length).erase a.id := by
    intro y hy
    rw [Finset.mem_erase]
    exact ⟨fun h => hloop (h ▸ hy), hsub hy⟩
  have := Finset.card_le_card hsub2
  rwa [Finset.card_erase_of_mem (Finset.mem_range.mpr hid), Finset.card_range] at this

theorem sum_new_modify (l : List Agent) (k : Nat) (d : ℚ) (hnd : (l.map Agent.id).Nodup) :
    ((l.map (fun a => if a.id = k then { a with new_opinion := a.new_opinion + d } else a)).map
      Agent.new_opinion).sum =
      (l.map Agent.new_opinion).sum + (if k ∈ l.map Agent.id then d else 0) := by
  induction l with
  | nil => simp
  | cons a t ih =>
    rw [List.map_cons, List.nodup_cons] at hnd
    simp only [List.map_cons, List.sum_cons, ih hnd.2, List.mem_cons]
    by_cases h : a.id = k
    · have hk : k ∉ t.map Agent.id := by
        rw [← h]
        exact hnd.1
      simp only [h, if_true, hk, if_false, true_or, add_zero]
      ring
    · have hne : ¬ k = a.id := fun e => h e.symm
      simp only [h, if_false, hne, false_or]
      ring

theorem totalNew_modify (m : Model) (k : Nat) (d : ℚ) (hnd : m.ids.Nodup)
    (hk : (m.agent? k).isSome = true) :
    (m.modify k (fun a => { a with new_opinion := a.new_opinion + d })).totalNew =
      m.totalNew + d := by
  unfold Model.totalNew Model.modify
  simp only []
  rw [sum_new_modify m.agents k d hnd]
  have hmem : k ∈ m.agents.map Agent.id := by
    cases h : m.agent? k with
    | none => rw [h] at hk; cases hk
    | some a =>
      rw [← agent?_id h]
      exact List.mem_map_of_mem Agent.id (agent?_mem h)
  simp only [hmem, if_true]

theorem modify_ids (m : Model) (k : Nat) (f : Agent → Agent) (hf : ∀ a, (f a).id = a.id) :
    (m.modify k f).ids = m.ids := by
  unfold Model.ids Model.modify
  simp only [List.map_map]
  apply List.map_congr_left
  intro a _
  simp only [Function.comp]
  split
  · exact hf a
  · rfl

theorem interact_totalNew {m m1 : Model} {i j : Nat} (hnd : m.ids.Nodup)
    (h : interact m i j = .ok m1) : m1.totalNew = m.totalNew := by
  unfold interact at h
  split at h
  · rename_i agent1 agent2 h1 h2
    dsimp only at h
    split at h
    · injection h with h
      rw [← h]
      rw [totalNew_modify, totalNew_modify]
      · ring
      · exact hnd
      · rw [h2]
        rfl
      · rw [modify_ids]
        · exact hnd
        · intro a
          rfl
      · rw [isSome_agent?_modify]
        · rw [h1]
          rfl
        · intro a
          rfl
    · injection h with h
      rw [h]
  · cases h

theorem updateAgent_totalNew {m m1 : Model} {i : Nat} {draws rest : List Nat}
    (hnd : m.ids.Nodup) (h : updateAgent m i draws = .ok (m1, rest)) :
    m1.totalNew = m.totalNew := by
  unfold updateAgent at h
  split at h
  · cases h
  · split at h
    · injection h with h
      injection h with h1 h2
      rw [h1]
    · split at h
      · cases h
      · split at h
        · rename_i m2 hint
          injection h with h
          injection h with h1 h2
          rw [← h1]
          exact interact_totalNew hnd hint
        · cases h

theorem updateLoop_totalNew (nodes : List Nat) : ∀ {m m1 : Model} {draws rest : List Nat},
    m.ids.Nodup → updateLoop nodes m draws = .ok (m1, rest) → m1.totalNew = m.totalNew := by
  induction nodes with
  | nil =>
    intro m m1 draws rest _ h
    simp only [updateLoop] at h
    injection h with h
    injection h with h1 h2
    rw [h1]
  | cons x xs ih =>
    intro m m1 draws rest hnd h
    simp only [updateLoop] at h
    split at h
    · rename_i m2 d2 hu
      have hnd2 : m2.ids.Nodup := by
        rw [frame_ids (updateAgent_frame hu)]
        exact hnd
      rw [ih hnd2 h, updateAgent_totalNew hnd hu]
    · cases h

theorem updateOpinions_totalNew {m m1 : Model} {draws order : List Nat} (hnd : m.ids.Nodup)
    (h : updateOpinions m draws order = .ok m1) : m1.totalNew = m.totalNew := by
  unfold updateOpinions at h
  split at h
  · cases h
  · split at h
    · rename_i hl
      injection h with h
      rw [← h]
      exact updateLoop_totalNew _ hnd hl
    · cases h

theorem commit_totals (m : Model) (c : List Nat) :
    (commit m c).1.totalNew = m.totalNew ∧ (commit m c).1.totalCurrent = m.totalNew ∧
      (commit m c).2.sum = m.totalNew := by
  refine ⟨?_, ?_, ?_⟩
  · unfold Model.totalNew
    rw [commit_fst]
    simp only [List.map_map]
    rfl
  · unfold Model.totalNew Model.totalCurrent
    rw [commit_fst]
    simp only [List.map_map]
    rfl
  · rw [commit_snd]
    exact ((rangeOrder_perm c m.agents).map Agent.new_opinion).sum_eq

theorem runnerLoop_totals (minStationary maxSteps : Nat) (choices : Nat → StepChoices)
    (model : Model) (hnd : model.ids.Nodup) (k : Nat) : ∀ s : RunnerState,
    runnerLoop minStationary maxSteps choices k (runnerInit model) = .ok s →
    s.model.totalNew = model.totalNew ∧
    (2 ≤ s.tstep → s.model.totalCurrent = model.totalNew) ∧
    ∀ snap ∈ s.data, snap.sum = model.totalNew := by
  induction k with
  | zero =>
    intro s h
    simp only [runnerLoop] at h
    injection h with h
    subst h
    refine ⟨rfl, ?_, ?_⟩
    · intro h2
      simp [runnerInit] at h2
    · intro snap hs
      simp [runnerInit] at hs
  | succ k ih =>
    intro s h
    obtain ⟨sk, hk, hcase⟩ := runnerLoop_succ_ok h
    obtain ⟨i1, i2, i3⟩ := ih sk hk
    rcases hcase with ⟨_, hstep⟩ | ⟨_, hs⟩
    · obtain ⟨m1, hu, hm, _, _, hd⟩ := runnerStep_ok hstep
      have hnd1 : sk.model.ids.Nodup := by
        rw [runnerLoop_ids minStationary maxSteps choices model k sk hk]
        exact hnd
      have ht := (updateOpinions_totalNew hnd1 hu).trans i1
      obtain ⟨c1, c2, c3⟩ := commit_totals m1 (choices sk.tstep).commit
      refine ⟨?_, ?_, ?_⟩
      · rw [hm, c1, ht]
      · intro _
        rw [hm, c2, ht]
      · intro snap hsnap
        rw [hd] at hsnap
        rcases List.mem_append.mp hsnap with hold | hlast
        · exact i3 snap hold
        · rw [List.mem_singleton.mp hlast, c3, ht]
    · subst hs
      exact ⟨i1, i2, i3⟩

theorem addToNew_congr (m : Model) (d1 d2 : Nat → ℚ) (h : ∀ k, d1 k = d2 k) :
    m.addToNew d1 = m.addToNew d2 := by
  have : d1 = d2 := funext h
  rw [this]

theorem addToNew_zero (m : Model) : m.addToNew (fun _ => 0) = m := by
  unfold Model.addToNew
  have : (fun a : Agent => ({ a with new_opinion := a.new_opinion + 0 } : Agent)) = id := by
    funext a
    simp only [add_zero, id]
  simp only [this, List.map_id]

theorem agent?_addToNew (m : Model) (delta : Nat → ℚ) (k : Nat) :
    (m.addToNew delta).agent? k =
      (m.agent? k).map (fun a => { a with new_opinion := a.new_opinion + delta k }) := by
  unfold Model.addToNew Model.agent?
  simp only []
  induction m.agents with
  | nil => rfl
  | cons a t ih =>
    simp only [List.map_cons, List.find?_cons]
    by_cases h : a.id = k
    · simp only [h, decide_True, Option.map_some']
    · simp only [h, decide_False, ih]

theorem modify_addToNew (m : Model) (delta : Nat → ℚ) (j : Nat) (y : ℚ) :
    (m.addToNew delta).modify j (fun a => { a with new_opinion := a.new_opinion + y }) =
      m.addToNew (fun k => delta k + if k = j then y else 0) := by
  unfold Model.addToNew Model.modify
  simp only [List.map_map]
  congr 1
  apply List.map_congr_left
  intro a _
  simp only [Function.comp]
  by_cases h : a.id = j
  · simp only [h, if_true, add_assoc]
  · simp only [h, if_false, add_zero]

theorem addToNew_frame (m : Model) (delta : Nat → ℚ) : (m.addToNew delta).frame = m.frame := by
  unfold Model.addToNew Model.frame
  simp only [List.map_map]
  rfl

theorem updateAgent_addToNew (m : Model) (hwf : m.WellFormed) (draw : Nat → Nat)
    (delta : Nat → ℚ) (i : Nat) (hi : i < m.agents.length) (xs rest : List Nat) :
    updateAgent (m.addToNew delta) i (partnerDraws m draw (i :: xs) ++ rest) =
      .ok (m.addToNew (fun k => delta k +
            (-(if i = k then transfer m draw i else 0) +
              (if partnerOf m draw i = some k then transfer m draw i else 0))),
           partnerDraws m draw xs ++ rest) := by
  have hk := hwf.keys i hi
  cases h1 : m.agent? i with
  | none => rw [h1] at hk; cases hk
  | some a1 =>
    have h1' := agent?_addToNew m delta i
    rw [h1] at h1'
    simp only [Option.map_some'] at h1'
    by_cases hc : a1.neighbors.card = 0
    · have hp : partnerOf m draw i = none := by
        unfold partnerOf
        simp only [h1, hc, if_true]
      have ht : transfer m draw i = 0 := by
        unfold transfer
        simp only [h1, hp]
      have hd : partnerDraws m draw (i :: xs) = partnerDraws m draw xs := by
        unfold partnerDraws
        simp only [List.filter_cons, hp, Option.isSome_none, Bool.false_eq_true, if_false]
      unfold updateAgent
      simp only [h1', hc, if_true, hd]
      congr 2
      apply addToNew_congr
      intro k
      simp only [ht, hp, ite_self, neg_zero, add_zero, if_false]
    · have hp : partnerOf m draw i = some (pickNeighbor a1 (draw i)) := by
        unfold partnerOf
        simp only [h1, hc, if_false]
      have hd : partnerDraws m draw (i :: xs) = draw i :: partnerDraws m draw xs := by
        unfold partnerDraws
        simp only [List.filter_cons, hp, Option.isSome_some, if_true, List.map_cons]
      have hcard : a1.neighbors.card ≤ m.agents.length := by
        have := Finset.card_le_card (hwf.neighbors a1 (agent?_mem h1))
        simpa using this
      have hj : pickNeighbor a1 (draw i) < m.agents.length :=
        lt_of_lt_of_le (Nat.mod_lt _ (Nat.pos_of_ne_zero hc)) hcard
      have hkj := hwf.keys _ hj
      cases h2 : m.agent? (pickNeighbor a1 (draw i)) with
      | none => rw [h2] at hkj; cases hkj
      | some a2 =>
        have h2' := agent?_addToNew m delta (pickNeighbor a1 (draw i))
        rw [h2] at h2'
        simp only [Option.map_some'] at h2'
        have hpick : pickNeighbor ({ a1 with new_opinion := a1.new_opinion + delta i } : Agent)
            (draw i) = pickNeighbor a1 (draw i) := rfl
        rw [hd, List.cons_append,
          updateAgent_step (m.addToNew delta) i _ (draw i) (partnerDraws m draw xs ++ rest) h1' hc,
          hpick]
        unfold interact
        simp only [h1', h2']
        have hconf : (m.addToNew delta).confidence = m.confidence := rfl
        have halpha : (m.addToNew delta).alpha = m.alpha := rfl
        rw [hconf, halpha]
        by_cases hlt : |a1.current_opinion - a2.current_opinion| < m.confidence
        · have ht : transfer m draw i = m.alpha * (a1.current_opinion - a2.current_opinion) := by
            unfold transfer
            simp only [h1, hp, h2, hlt, if_true]
          simp only [hlt, if_true]
          rw [modify_addToNew, modify_addToNew]
          congr 2
          apply addToNew_congr
          intro k
          rw [hp, ht]
          have hA : (if some (pickNeighbor a1 (draw i)) = some k then
                m.alpha * (a1.current_opinion - a2.current_opinion) else 0) =
              (if k = pickNeighbor a1 (draw i) then
                m.alpha * (a1.current_opinion - a2.current_opinion) else 0) := by
            by_cases e : k = pickNeighbor a1 (draw i)
            · rw [if_pos e, if_pos (by rw [e])]
            · rw [if_neg e, if_neg (fun h => e (Option.some.inj h).symm)]
          have hB : (if i = k then m.alpha * (a1.current_opinion - a2.current_opinion) else 0) =
              (if k = i then m.alpha * (a1.current_opinion - a2.current_opinion) else 0) := by
            by_cases e : k = i
            · rw [if_pos e, if_pos e.symm]
            · rw [if_neg e, if_neg (fun h => e h.symm)]
          rw [hA, hB]
          by_cases e1 : k = pickNeighbor a1 (draw i)
          · by_cases e2 : k = i
            · rw [if_pos e1, if_pos e2, if_pos e2]
              ring
            · rw [if_pos e1, if_neg e2, if_neg e2]
              ring
          · by_cases e2 : k = i
            · rw [if_neg e1, if_pos e2, if_pos e2]
              ring
            · rw [if_neg e1, if_neg e2, if_neg e2]
              ring
        · have ht : transfer m draw i = 0 := by
            unfold transfer
            simp only [h1, hp, h2, hlt, if_false]
          simp only [hlt, if_false]
          congr 2
          apply addToNew_congr
          intro k
          simp only [ht, ite_self, neg_zero, add_zero]

theorem netChange_nil (m : Model) (draw : Nat → Nat) (k : Nat) : netChange m draw [] k = 0 := by
  simp [netChange]

theorem netChange_cons (m : Model) (draw : Nat → Nat) (i : Nat) (xs : List Nat) (k : Nat) :
    netChange m draw (i :: xs) k =
      (-(if i = k then transfer m draw i else 0) +
        (if partnerOf m draw i = some k then transfer m draw i else 0)) +
      netChange m draw xs k := by
  simp only [netChange, List.map_cons, List.sum_cons]
  ring

theorem netChange_perm (m : Model) (draw : Nat → Nat) {l1 l2 : List Nat} (h : l1.Perm l2)
    (k : Nat) : netChange m draw l1 k = netChange m draw l2 k := by
  unfold netChange
  rw [(h.map _).sum_eq, (h.map (fun i => if partnerOf m draw i = some k then
    transfer m draw i else 0)).sum_eq]

theorem updateLoop_addToNew (m : Model) (hwf : m.WellFormed) (draw : Nat → Nat)
    (rest : List Nat) (nodes : List Nat) : ∀ delta : Nat → ℚ,
    (∀ i ∈ nodes, i < m.agents.length) →
    updateLoop nodes (m.addToNew delta) (partnerDraws m draw nodes ++ rest) =
      .ok (m.addToNew (fun k => delta k + netChange m draw nodes k), rest) := by
  induction nodes with
  | nil =>
    intro delta _
    simp only [updateLoop, partnerDraws, List.filter_nil, List.map_nil, List.nil_append]
    congr 2
    apply addToNew_congr
    intro k
    rw [netChange_nil, add_zero]
  | cons i xs ih =>
    intro delta hb
    simp only [updateLoop]
    rw [updateAgent_addToNew m hwf draw delta i (hb i (List.mem_cons_self _ _)) xs rest]
    simp only []
    rw [ih _ (fun y hy => hb y (List.mem_cons_of_mem _ hy))]
    congr 2
    apply addToNew_congr
    intro k
    rw [netChange_cons]
    ring

theorem selectNodes_append (numAgents q : Nat) (extra : List Nat) (sel : List Nat) :
    ∀ (ns nodes tail : List Nat), selectNodes numAgents q sel ns = .ok (nodes, tail) →
    selectNodes numAgents q (sel ++ extra) ns = .ok (nodes, tail ++ extra) := by
  induction sel with
  | nil =>
    intro ns nodes tail h
    simp only [selectNodes] at h
    split at h
    · split at h <;> cases h
    · rename_i hge
      injection h with h
      injection h with h1 h2
      subst h1
      subst h2
      simp only [List.nil_append]
      cases extra with
      | nil => simp only [selectNodes, hge, if_false]
      | cons e es => simp only [selectNodes, hge, if_false]
  | cons r rs ih =>
    intro ns nodes tail h
    simp only [selectNodes] at h
    simp only [List.cons_append, selectNodes]
    split at h
    · rename_i hlt
      simp only [hlt, if_true]
      split at h
      · cases h
      · rename_i hN
        simp only [hN, if_false]
        exact ih _ _ _ h
    · rename_i hge
      injection h with h
      injection h with h1 h2
      subst h1
      subst h2
      simp only [hge, if_false, List.cons_append]
      rfl

theorem newAgents_keys (x : Nat → ℚ) (c a : ℚ) (q n : Nat) :
    ∀ id, id < n → ((newAgents x n ⟨[], c, a, q⟩).agent? id).isSome = true := by
  intro id hid
  rw [newAgents_eq]
  unfold Model.agent?
  rw [List.find?_isSome]
  exact ⟨freshAgent id (x id) ∅,
    List.mem_map.mpr ⟨id, List.mem_range.mpr hid, rfl⟩, by simp [freshAgent]⟩

theorem newAgents_empty (x : Nat → ℚ) (c a : ℚ) (q n : Nat) :
    ∀ b ∈ (newAgents x n ⟨[], c, a, q⟩).agents, b.neighbors = ∅ := by
  intro b hb
  rw [newAgents_eq] at hb
  obtain ⟨k, _, hk⟩ := List.mem_map.mp hb
  rw [← hk]
  rfl

theorem NewModel_shape {n : Nat} {c a : ℚ} {q : Nat} {x : Nat → ℚ} {numEdges : Nat}
    {draws : List (Nat × Nat)} {model : Model}
    (h : NewModel n c a q x numEdges draws = .ok model) :
    model.agents.length = n ∧ model.numUpdateNodes = q := by
  unfold NewModel at h
  obtain ⟨s1, h1, hm⟩ := initializeNetwork_ok_edgeLoop h
  obtain ⟨hstrip, _, _, hq⟩ := edgeLoop_strip draws _ s1 h1
  rw [hm, newAgents_eq] at hstrip
  rw [hm, newAgents_eq] at hq
  have hlen := congrArg List.length hstrip
  simp only [List.length_map, List.length_range] at hlen
  exact ⟨hlen, hq⟩

theorem NewModel_returns (n : Nat) (c a : ℚ) (q : Nat) (x : Nat → ℚ) (numEdges : Nat)
    (hbound : numEdges ≤ numMaxEdges n) :
    ∃ draws model, NewModel n c a q x numEdges draws = .ok model := by
  obtain ⟨draws, s1, hrun, hs1⟩ :=
    edgeLoop_completes hbound numEdges ⟨newAgents x n ⟨[], c, a, q⟩, 0⟩
      (netInv_init _ n (newAgents_empty x c a q n)) (newAgents_keys x c a q n) (Nat.zero_add _)
  refine ⟨draws, s1.model, ?_⟩
  unfold NewModel initializeNetwork
  rw [hrun]
  simp only [hs1, Nat.lt_irrefl, if_false]

theorem selectNodes_none (draws : List Nat) : selectNodes 0 0 draws [] = .ok ([], draws) := by
  cases draws <;> rfl

theorem updateOpinions_noAgents (m : Model) (hN : m.agents = []) (hq : m.numUpdateNodes = 0)
    (draws order : List Nat) : updateOpinions m draws order = .ok m := by
  unfold updateOpinions
  rw [hN, hq]
  simp only [List.length_nil, selectNodes_none]
  rfl

theorem commit_noAgents (m : Model) (hN : m.agents = []) (c : List Nat) :
    commit m c = (m, []) := by
  obtain ⟨agents, conf, alpha, q⟩ := m
  simp only at hN
  subst hN
  rfl

theorem runnerStep_noAgents (choices : Nat → StepChoices) (s : RunnerState)
    (hN : s.model.agents = []) (hq : s.model.numUpdateNodes = 0) :
    runnerStep choices s =
      .ok { model := s.model, tstep := s.tstep + 1, stationary := s.stationary + 1,
            data := s.data ++ [[]] } := by
  unfold runnerStep
  rw [updateOpinions_noAgents s.model hN hq]
  simp only []
  rw [commit_noAgents s.model hN]
  have hch : opinionsChanged s.model = true := by
    unfold opinionsChanged
    rw [hN]
    rfl
  simp only [hch, if_true]

theorem runnerLoop_noAgents {minStationary maxSteps : Nat} (choices : Nat → StepChoices)
    (model : Model) (hN : model.agents = []) (hq : model.numUpdateNodes = 0) (k : Nat) :
    ∀ s : RunnerState, s.model = model → s.stationary + 1 = s.tstep →
    s.data = List.replicate (s.tstep - 1) [] → s.tstep ≤ min maxSteps minStationary + 1 →
    ∃ s1, runnerLoop minStationary maxSteps choices k s = .ok s1 ∧
      s1.data = List.replicate (s1.tstep - 1) [] ∧
      s1.tstep ≤ min maxSteps minStationary + 1 ∧
      (s1.tstep = min maxSteps minStationary + 1 ∨ s1.tstep = s.tstep + k) := by
  induction k with
  | zero =>
    intro s _ _ hd hb
    exact ⟨s, rfl, hd, hb, Or.inr rfl⟩
  | succ k ih =>
    intro s hm hst hd hb
    by_cases ht : s.tstep ≤ min maxSteps minStationary
    · have hc : runnerCond minStationary maxSteps s = true := by
        simp only [runnerCond, Bool.and_eq_true, decide_eq_true_eq]
        have := Nat.min_le_left maxSteps minStationary
        have := Nat.min_le_right maxSteps minStationary
        exact ⟨by omega, by omega⟩
      have hstep := runnerStep_noAgents choices s (by rw [hm]; exact hN) (by rw [hm]; exact hq)
      obtain ⟨s2, hloop, hd2, hb2, hend⟩ := ih
        { model := s.model, tstep := s.tstep + 1, stationary := s.stationary + 1,
          data := s.data ++ [[]] } hm (by simp only; omega)
        (by
          simp only
          rw [hd]
          have h1 : 1 ≤ s.tstep := by omega
          have e : s.tstep + 1 - 1 = (s.tstep - 1) + 1 := by omega
          rw [e, List.replicate_succ']) (by simp only; omega)
      refine ⟨s2, ?_, hd2, hb2, ?_⟩
      · simp only [runnerLoop, hc, if_true, hstep]
        exact hloop
      · rcases hend with hend | hend
        · exact Or.inl hend
        · exact Or.inr (by simp only at hend; omega)
    · have hc : ¬ runnerCond minStationary maxSteps s = true := by
        simp only [runnerCond, Bool.and_eq_true, decide_eq_true_eq, not_and, not_lt]
        intro h1
        have hmin : ¬ s.tstep ≤ min maxSteps minStationary := ht
        rw [Nat.le_min] at hmin
        omega
      refine ⟨s, ?_, hd, hb, Or.inl (by omega)⟩
      simp only [runnerLoop, hc, if_false]
      rfl

theorem runner_noAgents (minStationary maxSteps : Nat) (choices : Nat → StepChoices)
    (model : Model) (hN : model.agents = []) (hq : model.numUpdateNodes = 0) :
    runner minStationary model maxSteps choices =
      .ok (List.replicate (min maxSteps minStationary) []) := by
  obtain ⟨s1, hloop, hd, hb, hend⟩ :=
    @runnerLoop_noAgents minStationary maxSteps choices model hN hq maxSteps (runnerInit model)
      rfl rfl rfl (by simp only [runnerInit]; omega)
  have ht : s1.tstep = min maxSteps minStationary + 1 := by
    rcases hend with hend | hend
    · exact hend
    · have h1 : (runnerInit model).tstep = 1 := rfl
      have hle := Nat.min_le_left maxSteps minStationary
      omega
  unfold runner
  rw [hloop]
  simp only []
  rw [hd, ht, Nat.add_sub_cancel]

/-! ## The claims -/

/-- C1 (fails on the code): in Scenario A, which `NewModel` builds, the picked
agent `0` has the single neighbor `1`, yet for every raw draw the partner id
computed on line 71 is `0`, which is not in its neighbor set; the interaction
is then carried out with agent `0` itself. -/
theorem pickNeighbor_outside_neighbors :
    NewModel 2 1 (1 / 2) 1 (fun i => if i = 0 then 1 / 5 else 4 / 5) 1 [(0, 1)] = .ok scenarioA ∧
    scenarioA.agent? 0 = some (freshAgent 0 (1 / 5) {1}) ∧
    (∀ r : Nat, pickNeighbor (freshAgent 0 (1 / 5) {1}) r = 0) ∧
    0 ∉ (freshAgent 0 (1 / 5) {1}).neighbors ∧
    (∀ r : Nat, updateAgent scenarioA 0 [r] = .ok (scenarioA, [])) := by
  have hp : ∀ r : Nat, pickNeighbor (freshAgent 0 (1 / 5) {1}) r = 0 := by
    intro r
    simp [pickNeighbor, freshAgent, Nat.mod_one]
  refine ⟨by decide!, by decide!, hp, by decide, ?_⟩
  intro r
  rw [updateAgent_step scenarioA 0 (freshAgent 0 (1 / 5) {1}) r [] (by decide!) (by decide), hp r]
  decide!

/-- C2 (fails on the code): in the model `isolatedZero`, which `NewModel`
builds, agent `0` has no neighbor; when agent `1` is picked, the partner id of
line 71 is `0` for every raw draw, and the step (`updateOpinions`, then the
commit) moves the opinion of the isolated agent `0` from `1/5` to `11/50`. -/
theorem isolated_agent_moved :
    NewModel 3 (3 / 10) (1 / 10) 1 (fun i => if i = 0 then 1 / 5 else if i = 1 then 2 / 5 else 4 / 5)
        1 [(1, 2)] = .ok isolatedZero ∧
    isolatedZero.neighborsOf 0 = ∅ ∧
    isolatedZero.agent? 0 = some (freshAgent 0 (1 / 5) ∅) ∧
    ∀ (r : Nat) (order c : List Nat),
      ∃ m1, updateOpinions isolatedZero [1, r] order = .ok m1 ∧
        (commit m1 c).1.agent? 0 =
          some { id := 0, current_opinion := 11 / 50, previous_opinion := 1 / 5,
                 new_opinion := 11 / 50, neighbors := ∅ } := by
  refine ⟨by decide!, by decide!, by decide!, ?_⟩
  intro r order c
  have hsel : selectNodes isolatedZero.agents.length isolatedZero.numUpdateNodes [1, r] [] =
      .ok ([1], [r]) := by
    simp [selectNodes, isolatedZero, setInsert]
  have hp : pickNeighbor (freshAgent 1 (2 / 5) {2}) r = 0 := by
    simp [pickNeighbor, freshAgent, Nat.mod_one]
  have hint : interact isolatedZero 1 0 =
      .ok { agents := [⟨0, 1 / 5, 1 / 5, 11 / 50, ∅⟩, ⟨1, 2 / 5, 2 / 5, 19 / 50, {2}⟩,
                       freshAgent 2 (4 / 5) {1}]
            confidence := 3 / 10, alpha := 1 / 10, numUpdateNodes := 1 } := by decide!
  refine ⟨{ agents := [⟨0, 1 / 5, 1 / 5, 11 / 50, ∅⟩, ⟨1, 2 / 5, 2 / 5, 19 / 50, {2}⟩,
                       freshAgent 2 (4 / 5) {1}]
            confidence := 3 / 10, alpha := 1 / 10, numUpdateNodes := 1 }, ?_, ?_⟩
  · unfold updateOpinions
    rw [hsel]
    simp only []
    rw [rangeOrder_singleton]
    simp only [updateLoop]
    rw [updateAgent_step isolatedZero 1 (freshAgent 1 (2 / 5) {2}) r [] (by decide!) (by decide),
      hp, hint]
  · simp only [commit]
    decide!

/-- C3 (as stated, fails): a model whose only agent moved from `0` to `1` in
the step just committed; `opinionsChanged` returns `false` although the
previous and current opinion of that agent differ by more than epsilon. -/
theorem opinionsChanged_false_on_change :
    opinionsChanged
        { agents := [{ id := 0, current_opinion := 1, previous_opinion := 0, new_opinion := 1,
                       neighbors := ∅ }]
          confidence := 1, alpha := 1 / 2, numUpdateNodes := 1 } = false ∧
    ∃ agent ∈ [({ id := 0, current_opinion := 1, previous_opinion := 0, new_opinion := 1,
                  neighbors := ∅ } : Agent)],
      |agent.previous_opinion - agent.current_opinion| > paramOpinionDiffEpsilon := by
  refine ⟨by decide!, _, List.mem_singleton.mpr rfl, by decide!⟩

/-- C3 (amended): `opinionsChanged` returns `true` if and only if NO agent has
a previous opinion and a new opinion that differ in absolute value by more than
`paramOpinionDiffEpsilon`; right after the commit of `runner`, where the new
opinion is the current one, this is: no agent's previous and current (just
committed) opinion differ by more than `paramOpinionDiffEpsilon`. -/
theorem opinionsChanged_iff_no_change (model : Model) :
    (opinionsChanged model = true ↔
      ¬ ∃ agent ∈ model.agents,
          |agent.previous_opinion - agent.new_opinion| > paramOpinionDiffEpsilon) ∧
    ∀ order : List Nat,
      (opinionsChanged (commit model order).1 = true ↔
        ¬ ∃ agent ∈ (commit model order).1.agents,
            |agent.previous_opinion - agent.current_opinion| > paramOpinionDiffEpsilon) := by
  constructor
  · unfold opinionsChanged
    rw [opinionsChangedLoop_iff]
    simp only [not_exists, not_and, not_lt, gt_iff_lt]
  · intro order
    unfold opinionsChanged
    rw [opinionsChangedLoop_iff]
    simp only [commit, List.mem_map, not_exists, not_and, not_lt, gt_iff_lt, forall_exists_index,
      and_imp, forall_apply_eq_imp_iff₂, commitAgent]

/-- C4: if the picked agent `i` and its partner `j` are distinct entries of the
model, `diff = current_opinion[i] - current_opinion[j]` has `|diff| < confidence`
and both have `new_opinion = current_opinion`, then the interaction returns a
model in which `new_opinion[j] = current_opinion[j] + alpha * diff`,
`new_opinion[i] = current_opinion[i] - alpha * diff`, and the new gap
`new_opinion[i] - new_opinion[j]` is `(1 - 2 * alpha) * diff`. -/
theorem interact_within_confidence (m : Model) (i j : Nat) (agent1 agent2 : Agent)
    (hi : m.agent? i = some agent1) (hj : m.agent? j = some agent2) (hij : i ≠ j)
    (hconf : |agent1.current_opinion - agent2.current_opinion| < m.confidence)
    (hnew1 : agent1.new_opinion = agent1.current_opinion)
    (hnew2 : agent2.new_opinion = agent2.current_opinion) :
    ∃ m1 after1 after2, interact m i j = .ok m1 ∧
      m1.agent? i = some after1 ∧ m1.agent? j = some after2 ∧
      after2.new_opinion = agent2.current_opinion +
        m.alpha * (agent1.current_opinion - agent2.current_opinion) ∧
      after1.new_opinion = agent1.current_opinion -
        m.alpha * (agent1.current_opinion - agent2.current_opinion) ∧
      after1.new_opinion - after2.new_opinion =
        (1 - 2 * m.alpha) * (agent1.current_opinion - agent2.current_opinion) := by
  have hid1 : agent1.id = i := agent?_id hi
  have hid2 : agent2.id = j := agent?_id hj
  have hji : ¬ j = i := fun h => hij h.symm
  refine ⟨(m.modify j (fun a => { a with new_opinion := a.new_opinion +
      m.alpha * (agent1.current_opinion - agent2.current_opinion) })).modify i
      (fun a => { a with new_opinion := a.new_opinion +
        (-(m.alpha * (agent1.current_opinion - agent2.current_opinion))) }),
    { agent1 with new_opinion := agent1.new_opinion +
        (-(m.alpha * (agent1.current_opinion - agent2.current_opinion))) },
    { agent2 with new_opinion := agent2.new_opinion +
        m.alpha * (agent1.current_opinion - agent2.current_opinion) }, ?_, ?_, ?_, ?_, ?_, ?_⟩
  · unfold interact
    simp only [hi, hj, hconf, if_true]
  · rw [agent?_modify, agent?_modify, hi]
    · simp only [Option.map_some', hid1, hij, if_false, if_true]
    · intro a
      rfl
    · intro a
      rfl
  · rw [agent?_modify, agent?_modify, hj]
    · simp only [Option.map_some', hid2, hji, if_false, if_true]
    · intro a
      rfl
    · intro a
      rfl
  · simp only [hnew2]
  · simp only [hnew1]
    ring
  · simp only [hnew1, hnew2]
    ring

/-- Witness of C4 on Scenario A: picked agent `1`, partner `0`. -/
theorem interact_within_confidence_witness :
    ∃ m1 after1 after2, interact scenarioA 1 0 = .ok m1 ∧
      m1.agent? 1 = some after1 ∧ m1.agent? 0 = some after2 ∧
      after2.new_opinion = (freshAgent 0 (1 / 5) {1}).current_opinion +
        scenarioA.alpha * ((freshAgent 1 (4 / 5) {0}).current_opinion -
          (freshAgent 0 (1 / 5) {1}).current_opinion) ∧
      after1.new_opinion = (freshAgent 1 (4 / 5) {0}).current_opinion -
        scenarioA.alpha * ((freshAgent 1 (4 / 5) {0}).current_opinion -
          (freshAgent 0 (1 / 5) {1}).current_opinion) ∧
      after1.new_opinion - after2.new_opinion =
        (1 - 2 * scenarioA.alpha) * ((freshAgent 1 (4 / 5) {0}).current_opinion -
          (freshAgent 0 (1 / 5) {1}).current_opinion) :=
  interact_within_confidence scenarioA 1 0 (freshAgent 1 (4 / 5) {0}) (freshAgent 0 (1 / 5) {1})
    (by decide!) (by decide!) (by decide) (by decide!) rfl rfl

/-- C5: if the picked agent `i` and its partner `j` are entries of the model
and `|current_opinion[i] - current_opinion[j]| >= confidence`, the interaction
returns the model unchanged: no field of any agent is modified. -/
theorem interact_outside_confidence (m : Model) (i j : Nat) (agent1 agent2 : Agent)
    (hi : m.agent? i = some agent1) (hj : m.agent? j = some agent2)
    (hconf : m.confidence ≤ |agent1.current_opinion - agent2.current_opinion|) :
    interact m i j = .ok m := by
  unfold interact
  simp only [hi, hj, not_lt.mpr hconf, if_false]

/-- Witness of C5: Scenario A with confidence `0.3`, picked agent `1`, partner `0`. -/
theorem interact_outside_confidence_witness :
    interact { scenarioA with confidence := 3 / 10 } 1 0 =
      .ok { scenarioA with confidence := 3 / 10 } :=
  interact_outside_confidence { scenarioA with confidence := 3 / 10 } 1 0
    (freshAgent 1 (4 / 5) {0}) (freshAgent 0 (1 / 5) {1}) (by decide!) (by decide!) (by decide!)

/-- C6: let `s` be a state the loop of `runner` reaches (keys of the agent map
pairwise distinct, as in any Go map); `s` is the state after exactly
`s.tstep - 1` executed steps. Then (1) a further step increments `stationary`
if no agent's committed opinion moved by more than epsilon in it and resets it
to `0` otherwise; (2) `stationary` is at most the number of executed steps;
(3) each of the last `stationary` executed steps moved no agent by more than
epsilon; (4) the step before those, if there is one, did move some agent by
more than epsilon. In particular, when the loop stops with
`stationary = paramMinStationary`, the last `paramMinStationary` steps each
moved no agent by more than epsilon. -/
theorem stationary_counts_quiet_steps (minStationary maxSteps : Nat)
    (choices : Nat → StepChoices) (model : Model) (hkeys : model.ids.Nodup) (k : Nat)
    (s : RunnerState)
    (hrun : runnerLoop minStationary maxSteps choices k (runnerInit model) = .ok s) :
    runnerLoop minStationary maxSteps choices (s.tstep - 1) (runnerInit model) = .ok s ∧
    (∀ s1, runnerStep choices s = .ok s1 →
      (quietStep s.model s1.model → s1.stationary = s.stationary + 1) ∧
      (¬ quietStep s.model s1.model → s1.stationary = 0)) ∧
    s.stationary ≤ s.tstep - 1 ∧
    (∀ j, s.tstep - 1 - s.stationary ≤ j → j < s.tstep - 1 → ∃ a b,
      runnerLoop minStationary maxSteps choices j (runnerInit model) = .ok a ∧
      runnerLoop minStationary maxSteps choices (j + 1) (runnerInit model) = .ok b ∧
      a.tstep = j + 1 ∧ b.tstep = j + 2 ∧ quietStep a.model b.model) ∧
    (s.stationary < s.tstep - 1 → ∃ a b,
      runnerLoop minStationary maxSteps choices (s.tstep - 1 - s.stationary - 1)
        (runnerInit model) = .ok a ∧
      runnerLoop minStationary maxSteps choices (s.tstep - 1 - s.stationary)
        (runnerInit model) = .ok b ∧
      a.tstep = s.tstep - 1 - s.stationary ∧ b.tstep = s.tstep - 1 - s.stationary + 1 ∧
      ¬ quietStep a.model b.model) := by
  obtain ⟨h1, _, h3⟩ := runnerLoop_tstep minStationary maxSteps choices model k s hrun
  have hnd : s.model.ids.Nodup := by
    rw [runnerLoop_ids minStationary maxSteps choices model k s hrun]
    exact hkeys
  obtain ⟨e1, e2, e3⟩ := stationary_exact minStationary maxSteps choices model hkeys
    (s.tstep - 1) s h3 (by omega)
  exact ⟨h3, fun s1 hs1 => runnerStep_stationary hnd hs1, e1, e2, e3⟩

/-- Witness of C6: Scenario A run for three steps under `pickOneChoices` with
`paramMinStationary = 2`; the first step moves both agents to `1/2`, the next
two move nothing, and the counter is `2`. -/
theorem stationary_counts_quiet_steps_witness :
    scenarioAFinal.stationary ≤ scenarioAFinal.tstep - 1 ∧
    ∀ j, scenarioAFinal.tstep - 1 - scenarioAFinal.stationary ≤ j →
      j < scenarioAFinal.tstep - 1 → ∃ a b,
      runnerLoop 2 5 pickOneChoices j (runnerInit scenarioA) = .ok a ∧
      runnerLoop 2 5 pickOneChoices (j + 1) (runnerInit scenarioA) = .ok b ∧
      a.tstep = j + 1 ∧ b.tstep = j + 2 ∧ quietStep a.model b.model :=
  have h := stationary_counts_quiet_steps 2 5 pickOneChoices scenarioA (by decide) 3
    scenarioAFinal (by decide!)
  ⟨h.2.2.1, h.2.2.2.1⟩

/-- C7 (as stated, fails): on the model `loneAgentTwoPicks`, which `NewModel`
builds for `n = 1`, `q = 2`, the selection loop of `updateOpinions` can never
collect two distinct ids: whatever draws are supplied it is still running when
they are used up, so `runner` returns no trajectory. -/
theorem runner_never_returns :
    NewModel 1 (3 / 10) (1 / 10) 2 (fun _ => 1 / 2) 0 [] = .ok loneAgentTwoPicks ∧
    ∀ choices : Nat → StepChoices,
      runner paramMinStationary loneAgentTwoPicks 1 choices = .error .exhausted := by
  refine ⟨by decide!, ?_⟩
  intro choices
  have hsel := selectNodes_lone (choices 1).rand [] (Or.inl rfl)
  have hu : updateOpinions loneAgentTwoPicks (choices 1).rand (choices 1).order =
      .error .exhausted := by
    unfold updateOpinions
    have hl : loneAgentTwoPicks.agents.length = 1 := rfl
    have hq : loneAgentTwoPicks.numUpdateNodes = 2 := rfl
    rw [hl, hq, hsel]
  have hc : runnerCond paramMinStationary 1 (runnerInit loneAgentTwoPicks) = true := by decide
  have hstep : runnerStep choices (runnerInit loneAgentTwoPicks) = .error .exhausted := by
    unfold runnerStep
    have ht : (runnerInit loneAgentTwoPicks).tstep = 1 := rfl
    have hm : (runnerInit loneAgentTwoPicks).model = loneAgentTwoPicks := rfl
    rw [ht, hm, hu]
  unfold runner
  simp only [runnerLoop, hc, if_true, hstep]

/-- C7 (amended): for every well-formed model (every id below the number `N` of
agents is a key, neighbor sets are sets of such ids, `numUpdateNodes ≤ N`),
every `maxSteps ≥ 1` and `paramMinStationary ≥ 1`, and all choices whose draws
suffice for the selection loop of each step, the loop of `runner` exits within
`maxSteps` passes and `runner` returns a trajectory with one snapshot per
executed step, of length `L` with `1 ≤ L ≤ maxSteps`. Sufficient draws exist:
`0, …, q-1` followed by `q` further draws. -/
theorem runner_returns_within_maxSteps (minStationary maxSteps : Nat)
    (choices : Nat → StepChoices) (model : Model) (hwf : model.WellFormed)
    (hmax : 1 ≤ maxSteps) (hmin : 1 ≤ minStationary)
    (hdraws : ∀ t, 1 ≤ t → t ≤ maxSteps →
      sufficientDraws model.agents.length model.numUpdateNodes (choices t).rand = true) :
    sufficientDraws model.agents.length model.numUpdateNodes
      (List.range model.numUpdateNodes ++ List.replicate model.numUpdateNodes 0) = true ∧
    ∃ s, runnerLoop minStationary maxSteps choices maxSteps (runnerInit model) = .ok s ∧
      runnerCond minStationary maxSteps s = false ∧
      runner minStationary model maxSteps choices = .ok s.data ∧
      s.data.length + 1 = s.tstep ∧ 1 ≤ s.data.length ∧ s.data.length ≤ maxSteps := by
  refine ⟨sufficientDraws_range _ _ hwf.picks, ?_⟩
  have hinv : RunnerInv maxSteps model.agents.length model.numUpdateNodes (runnerInit model) :=
    ⟨hwf, rfl, rfl, rfl, by simp [runnerInit]⟩
  have hc : runnerCond minStationary maxSteps (runnerInit model) = true := by
    simp only [runnerCond, runnerInit, Bool.and_eq_true, decide_eq_true_eq]
    exact ⟨hmax, hmin⟩
  obtain ⟨s, hloop, hinv1, hend, hmono⟩ :=
    @runnerLoop_total minStationary maxSteps _ _ choices hdraws maxSteps (runnerInit model)
      hinv (Nat.le_refl 1)
  have hlt := hmono hc (by omega)
  have hb := hinv1.bound
  have hsn := hinv1.snapshots
  have ht0 : (runnerInit model).tstep = 1 := rfl
  refine ⟨s, hloop, ?_, ?_, hsn, by omega, by omega⟩
  · rcases hend with hend | hend
    · exact hend
    · simp only [runnerCond, Bool.and_eq_false_imp, decide_eq_true_eq, decide_eq_false_iff_not]
      intro hle
      omega
  · unfold runner
    rw [hloop]

/-- Witness of C7: Scenario A with `maxSteps = 5`, `paramMinStationary = 2`
under `pickOneChoices`. -/
theorem runner_returns_within_maxSteps_witness :
    ∃ s, runnerLoop 2 5 pickOneChoices 5 (runnerInit scenarioA) = .ok s ∧
      runnerCond 2 5 s = false ∧
      runner 2 scenarioA 5 pickOneChoices = .ok s.data ∧
      s.data.length + 1 = s.tstep ∧ 1 ≤ s.data.length ∧ s.data.length ≤ 5 :=
  (runner_returns_within_maxSteps 2 5 pickOneChoices scenarioA
    ⟨by decide, by decide, by decide⟩ (by decide) (by decide)
    (fun _ _ _ => (by decide : sufficientDraws 2 1 [1, 0] = true))).2


/-- C8: let all neighbor sets of the model be empty and `n ≥ 2`. For every edge
count and every sequence of pair draws, every state the edge loop of
`initializeNetwork` passes through (the state reached on any initial part `d1`
of the draws, hence the state after every edge insertion) has a symmetric and
loop-free adjacency, and so has the model `initializeNetwork` returns; when
the model has an entry for every id below `n`, the loop does not panic. -/
theorem initializeNetwork_symmetric_loopFree (m : Model) (n numEdges : Nat)
    (draws : List (Nat × Nat)) (hn : 2 ≤ n)
    (hempty : ∀ a ∈ m.agents, a.neighbors = ∅) :
    (∀ (d1 d2 : List (Nat × Nat)) (s1 : NetState), draws = d1 ++ d2 →
      edgeLoop n numEdges d1 ⟨m, 0⟩ = .ok s1 →
        edgeLoop n numEdges draws ⟨m, 0⟩ = edgeLoop n numEdges d2 s1 ∧
        s1.model.Symmetric ∧ s1.model.LoopFree) ∧
    (∀ m1, initializeNetwork m n numEdges draws = .ok m1 → m1.Symmetric ∧ m1.LoopFree) ∧
    ((∀ id, id < n → (m.agent? id).isSome = true) →
      ∃ s, edgeLoop n numEdges draws ⟨m, 0⟩ = .ok s) := by
  have hinit := netInv_init m n hempty
  refine ⟨?_, ?_, ?_⟩
  · intro d1 d2 s1 hd h1
    obtain ⟨hinv1, _⟩ := edgeLoop_sound d1 ⟨m, 0⟩ s1 h1 hinit (Nat.zero_le _)
    refine ⟨?_, hinv1.symmetric, hinv1.loopFree⟩
    rw [hd, edgeLoop_append, h1]
  · intro m1 hret
    unfold initializeNetwork at hret
    cases h1 : edgeLoop n numEdges draws ⟨m, 0⟩ with
    | error e => rw [h1] at hret; cases hret
    | ok s1 =>
      rw [h1] at hret
      obtain ⟨hinv1, _⟩ := edgeLoop_sound draws ⟨m, 0⟩ s1 h1 hinit (Nat.zero_le _)
      simp only at hret
      split at hret
      · split at hret <;> cases hret
      · injection hret with hret
        rw [← hret]
        exact ⟨hinv1.symmetric, hinv1.loopFree⟩
  · intro hkeys
    exact edgeLoop_total (by omega) draws ⟨m, 0⟩ hkeys

/-- Witness of C8: three fresh agents, two edges requested, draws `(1,1)`,
`(0,2)`, `(2,0)`, `(4,5)`. -/
theorem initializeNetwork_symmetric_loopFree_witness :
    (∀ (d1 d2 : List (Nat × Nat)) (s1 : NetState),
      [(1, 1), (0, 2), (2, 0), (4, 5)] = d1 ++ d2 →
      edgeLoop 3 2 d1 ⟨threeFresh, 0⟩ = .ok s1 →
        edgeLoop 3 2 [(1, 1), (0, 2), (2, 0), (4, 5)] ⟨threeFresh, 0⟩ = edgeLoop 3 2 d2 s1 ∧
        s1.model.Symmetric ∧ s1.model.LoopFree) ∧
    (∀ m1, initializeNetwork threeFresh 3 2 [(1, 1), (0, 2), (2, 0), (4, 5)] = .ok m1 →
      m1.Symmetric ∧ m1.LoopFree) ∧
    ((∀ id, id < 3 → (threeFresh.agent? id).isSome = true) →
      ∃ s, edgeLoop 3 2 [(1, 1), (0, 2), (2, 0), (4, 5)] ⟨threeFresh, 0⟩ = .ok s) :=
  initializeNetwork_symmetric_loopFree threeFresh 3 2 [(1, 1), (0, 2), (2, 0), (4, 5)]
    (by decide) (by decide)

/-- C9: let all neighbor sets of the model be empty and `numEdges ≤ n(n-1)/2`.
Whenever `initializeNetwork` returns, the number of unordered pairs of ids
below `n` that are neighbors is exactly `numEdges`; it never exceeds
`n(n-1)/2` and is `0` when the drawn count is `0`. When the model has an entry
for every id below `n`, there are draws on which `initializeNetwork` returns. -/
theorem initializeNetwork_edgeCount (m : Model) (n numEdges : Nat)
    (hempty : ∀ a ∈ m.agents, a.neighbors = ∅)
    (hbound : numEdges ≤ n * (n - 1) / 2) :
    (∀ draws m1, initializeNetwork m n numEdges draws = .ok m1 →
      edgeCount m1 n = numEdges ∧ edgeCount m1 n ≤ n * (n - 1) / 2 ∧
      (numEdges = 0 → edgeCount m1 n = 0)) ∧
    ((∀ id, id < n → (m.agent? id).isSome = true) →
      ∃ draws m1, initializeNetwork m n numEdges draws = .ok m1) := by
  have hinit := netInv_init m n hempty
  constructor
  · intro draws m1 hret
    unfold initializeNetwork at hret
    cases h1 : edgeLoop n numEdges draws ⟨m, 0⟩ with
    | error e => rw [h1] at hret; cases hret
    | ok s1 =>
      rw [h1] at hret
      obtain ⟨hinv1, hle⟩ := edgeLoop_sound draws ⟨m, 0⟩ s1 h1 hinit (Nat.zero_le _)
      simp only at hret
      split at hret
      · split at hret <;> cases hret
      · rename_i hge
        injection hret with hret
        have hcount : edgeCount m1 n = numEdges := by
          rw [← hret, hinv1.count]
          omega
        exact ⟨hcount, edgeCount_le m1 n, fun hz => by rw [hcount, hz]⟩
  · intro hkeys
    obtain ⟨draws, s1, hrun, hs1⟩ :=
      edgeLoop_completes hbound numEdges ⟨m, 0⟩ hinit hkeys (Nat.zero_add _)
    refine ⟨draws, s1.model, ?_⟩
    unfold initializeNetwork
    rw [hrun]
    simp only [hs1, Nat.lt_irrefl, if_false]

/-- Witness of C9: three fresh agents and two requested edges. -/
theorem initializeNetwork_edgeCount_witness :
    (∀ draws m1, initializeNetwork threeFresh 3 2 draws = .ok m1 →
      edgeCount m1 3 = 2 ∧ edgeCount m1 3 ≤ 3 * (3 - 1) / 2 ∧ (2 = 0 → edgeCount m1 3 = 0)) ∧
    ((∀ id, id < 3 → (threeFresh.agent? id).isSome = true) →
      ∃ draws m1, initializeNetwork threeFresh 3 2 draws = .ok m1) :=
  initializeNetwork_edgeCount threeFresh 3 2 (by decide) (by decide)

/-- C10 (fails on the code): in Scenario A, when the selection loop picks agent
`0`, the partner id of line 71 is `0` again for every raw draw, the difference
is `0`, and the step (`updateOpinions`, then the commit) leaves the opinions at
`0.2` and `0.8`; only when agent `1` is picked do both become `0.5`. -/
theorem scenarioA_unchanged_when_zero_picked :
    (∀ (r : Nat) (order c : List Nat),
      updateOpinions scenarioA [0, r] order = .ok scenarioA ∧
      (commit scenarioA c).1 = scenarioA ∧
      (commit scenarioA c).1.agent? 0 = some (freshAgent 0 (1 / 5) {1}) ∧
      (commit scenarioA c).1.agent? 1 = some (freshAgent 1 (4 / 5) {0})) ∧
    (∀ (r : Nat) (order c : List Nat),
      ∃ m1, updateOpinions scenarioA [1, r] order = .ok m1 ∧
        (commit m1 c).1.agents.map Agent.current_opinion = [1 / 2, 1 / 2]) := by
  constructor
  · intro r order c
    have hsel : selectNodes scenarioA.agents.length scenarioA.numUpdateNodes [0, r] [] =
        .ok ([0], [r]) := by
      simp [selectNodes, scenarioA, setInsert]
    have hp : pickNeighbor (freshAgent 0 (1 / 5) {1}) r = 0 := by
      simp [pickNeighbor, freshAgent, Nat.mod_one]
    have hint : interact scenarioA 0 0 = .ok scenarioA := by decide!
    have hc : (commit scenarioA c).1 = scenarioA := by
      simp only [commit]
      decide!
    refine ⟨?_, hc, ?_, ?_⟩
    · unfold updateOpinions
      rw [hsel]
      simp only []
      rw [rangeOrder_singleton]
      simp only [updateLoop]
      rw [updateAgent_step scenarioA 0 (freshAgent 0 (1 / 5) {1}) r [] (by decide!) (by decide),
        hp, hint]
    · rw [hc]
      decide!
    · rw [hc]
      decide!
  · intro r order c
    have hsel : selectNodes scenarioA.agents.length scenarioA.numUpdateNodes [1, r] [] =
        .ok ([1], [r]) := by
      simp [selectNodes, scenarioA, setInsert]
    have hp : pickNeighbor (freshAgent 1 (4 / 5) {0}) r = 0 := by
      simp [pickNeighbor, freshAgent, Nat.mod_one]
    have hint : interact scenarioA 1 0 =
        .ok { agents := [⟨0, 1 / 5, 1 / 5, 1 / 2, {1}⟩, ⟨1, 4 / 5, 4 / 5, 1 / 2, {0}⟩]
              confidence := 1, alpha := 1 / 2, numUpdateNodes := 1 } := by decide!
    refine ⟨{ agents := [⟨0, 1 / 5, 1 / 5, 1 / 2, {1}⟩, ⟨1, 4 / 5, 4 / 5, 1 / 2, {0}⟩]
              confidence := 1, alpha := 1 / 2, numUpdateNodes := 1 }, ?_, ?_⟩
    · unfold updateOpinions
      rw [hsel]
      simp only []
      rw [rangeOrder_singleton]
      simp only [updateLoop]
      rw [updateAgent_step scenarioA 1 (freshAgent 1 (4 / 5) {0}) r [] (by decide!) (by decide),
        hp, hint]
    · simp only [commit]
      decide!

/-- C11 (as stated, fails): in the model `loneAgentTwoPicks`, which `NewModel`
builds for `n = 1`, `q = 2`, every neighbor set is empty, yet for
`maxSteps = paramMinStationary = 1` and whatever draws are supplied the
selection loop of the first step is still running when they are used up:
`runner` does not stop after `paramMinStationary` steps. -/
theorem isolated_run_never_returns :
    (∀ a ∈ loneAgentTwoPicks.agents, a.neighbors = ∅) ∧
    ∀ choices : Nat → StepChoices, runner 1 loneAgentTwoPicks 1 choices = .error .exhausted := by
  refine ⟨by decide, ?_⟩
  intro choices
  have hsel := selectNodes_lone (choices 1).rand [] (Or.inl rfl)
  have hu : updateOpinions loneAgentTwoPicks (choices 1).rand (choices 1).order =
      .error .exhausted := by
    unfold updateOpinions
    have hl : loneAgentTwoPicks.agents.length = 1 := rfl
    have hq : loneAgentTwoPicks.numUpdateNodes = 2 := rfl
    rw [hl, hq, hsel]
  have hc : runnerCond 1 1 (runnerInit loneAgentTwoPicks) = true := by decide
  have hstep : runnerStep choices (runnerInit loneAgentTwoPicks) = .error .exhausted := by
    unfold runnerStep
    have ht : (runnerInit loneAgentTwoPicks).tstep = 1 := rfl
    have hm : (runnerInit loneAgentTwoPicks).model = loneAgentTwoPicks := rfl
    rw [ht, hm, hu]
  unfold runner
  simp only [runnerLoop, hc, if_true, hstep]

/-- C11 (amended): let every id below the number `N` of agents be a key, all
neighbor sets be empty and every agent have `new_opinion = current_opinion`
(as `NewModel` builds it for `p = 0`), let `maxSteps ≥ paramMinStationary ≥ 1`,
and let the selection loop of each step end within the draws supplied. Then
`runner` returns a trajectory of exactly `paramMinStationary` snapshots, and
each snapshot lists the initial opinions of the agents, in the iteration order
of that step's commit loop. -/
theorem isolated_run_stops (minStationary maxSteps : Nat) (choices : Nat → StepChoices)
    (model : Model)
    (hkeys : ∀ id, id < model.agents.length → (model.agent? id).isSome = true)
    (hempty : ∀ a ∈ model.agents, a.neighbors = ∅)
    (hnew : ∀ a ∈ model.agents, a.new_opinion = a.current_opinion)
    (hmin : 1 ≤ minStationary) (hmax : minStationary ≤ maxSteps)
    (hdraws : ∀ t, 1 ≤ t → t ≤ minStationary →
      selectionEnds model.agents.length model.numUpdateNodes (choices t).rand = true) :
    ∃ data, runner minStationary model maxSteps choices = .ok data ∧
      data.length = minStationary ∧
      (∀ t, t < data.length →
        data[t]? = some ((rangeOrder (choices (t + 1)).commit model.agents).map
          Agent.current_opinion)) ∧
      ∀ snap ∈ data, snap.Perm (model.agents.map Agent.current_opinion) := by
  have hinit : IsolatedInv minStationary choices model (runnerInit model) :=
    ⟨Or.inl rfl, rfl, by simp only [runnerInit]; omega, rfl,
      fun t ht => by simp [runnerInit] at ht⟩
  obtain ⟨s, hloop, hinv, hend⟩ :=
    isolated_loop choices model hkeys hempty hnew hmax hdraws maxSteps (runnerInit model) hinit
  have ht : s.tstep = minStationary + 1 := by
    rcases hend with hend | hend
    · exact hend
    · have hb := hinv.bound
      have h1 : (runnerInit model).tstep = 1 := rfl
      omega
  have hlen : s.data.length = minStationary := by
    have := hinv.size
    omega
  refine ⟨s.data, ?_, hlen, hinv.snapshots, ?_⟩
  · unfold runner
    rw [hloop]
  · intro snap hsnap
    obtain ⟨t, htlt, hget⟩ := List.getElem_of_mem hsnap
    have h2 := hinv.snapshots t htlt
    rw [List.getElem?_eq_getElem htlt, hget] at h2
    injection h2 with h2
    rw [h2]
    exact (rangeOrder_perm _ _).map _

/-- Witness of C11: three agents without edges, `maxSteps = 3`,
`paramMinStationary = 2`, under `pickZeroChoices`. -/
theorem isolated_run_stops_witness :
    ∃ data, runner 2 threeFresh 3 pickZeroChoices = .ok data ∧
      data.length = 2 ∧
      (∀ t, t < data.length →
        data[t]? = some ((rangeOrder (pickZeroChoices (t + 1)).commit threeFresh.agents).map
          Agent.current_opinion)) ∧
      ∀ snap ∈ data, snap.Perm (threeFresh.agents.map Agent.current_opinion) :=
  isolated_run_stops 2 3 pickZeroChoices threeFresh (by decide) (by decide) (by decide!)
    (by decide) (by decide) (fun _ _ _ => (by decide : selectionEnds 3 1 [0] = true))

/-- C13 (as stated, fails): no configuration is rejected. `NewModel` returns a
model for `n = 1`, `q = 2`, and the loop of `runner` is entered on it with
`q` greater than the number of agents; `NewModel` returns a model for `n = 0`,
`q = 0`, and `runner` returns a trajectory (of empty snapshots) for it. -/
theorem malformed_configuration_accepted :
    NewModel 1 (3 / 10) (1 / 10) 2 (fun _ => 1 / 2) 0 [] = .ok loneAgentTwoPicks ∧
    loneAgentTwoPicks.agents.length < loneAgentTwoPicks.numUpdateNodes ∧
    runnerCond paramMinStationary 1 (runnerInit loneAgentTwoPicks) = true ∧
    NewModel 0 (3 / 10) (1 / 10) 0 (fun _ => 1 / 2) 0 [] = .ok noAgents ∧
    runner 2 noAgents 5 pickZeroChoices = .ok [[], []] := by
  refine ⟨by decide!, by decide, by decide, by decide!, by decide!⟩

/-- C13 (amended): the code has no configuration check. For every `n` and `q`
and every edge draw within `numMaxEdges n`, there are pair draws on which
`NewModel` returns a model with `n` agents and `numUpdateNodes = q`, and
whenever `NewModel` returns, the model has this shape: no `n` or `q` is refused.
With `maxSteps ≥ 1` and `paramMinStationary ≥ 1`, `runner` enters its loop on
every model. On a model with `q` greater than the number `N` of agents,
`updateOpinions` never returns, since its selection loop cannot collect `q`
distinct ids: it is still running when the draws are used up if `N ≥ 1`, and
panics in `rand.Intn(0)` if `N = 0`; so `runner` produces no trajectory, but
nothing is reported before the loop starts. On a model with `N = 0` and
`q = 0`, `runner` returns a trajectory of `min maxSteps paramMinStationary`
empty snapshots. -/
theorem configuration_never_checked (minStationary maxSteps : Nat) (model : Model) :
    (∀ (n : Nat) (c a : ℚ) (q : Nat) (x : Nat → ℚ) (numEdges : Nat),
      numEdges ≤ numMaxEdges n →
      ∃ draws m, NewModel n c a q x numEdges draws = .ok m ∧ m.agents.length = n ∧
        m.numUpdateNodes = q) ∧
    (∀ (n : Nat) (c a : ℚ) (q : Nat) (x : Nat → ℚ) (numEdges : Nat)
      (draws : List (Nat × Nat)) (m : Model),
      NewModel n c a q x numEdges draws = .ok m → m.agents.length = n ∧ m.numUpdateNodes = q) ∧
    (1 ≤ maxSteps → 1 ≤ minStationary →
      runnerCond minStationary maxSteps (runnerInit model) = true) ∧
    (model.agents.length < model.numUpdateNodes →
      (∀ draws order, updateOpinions model draws order =
        .error (if model.agents.length = 0 then .panic else .exhausted)) ∧
      (1 ≤ maxSteps → 1 ≤ minStationary →
        ∀ choices : Nat → StepChoices, runner minStationary model maxSteps choices =
          .error (if model.agents.length = 0 then .panic else .exhausted))) ∧
    (model.agents = [] → model.numUpdateNodes = 0 →
      ∀ choices : Nat → StepChoices, runner minStationary model maxSteps choices =
        .ok (List.replicate (min maxSteps minStationary) [])) := by
  have hcond : 1 ≤ maxSteps → 1 ≤ minStationary →
      runnerCond minStationary maxSteps (runnerInit model) = true := by
    intro hmax hmin
    simp only [runnerCond, runnerInit, Bool.and_eq_true, decide_eq_true_eq]
    exact ⟨hmax, hmin⟩
  refine ⟨?_, ?_, hcond, ?_, ?_⟩
  · intro n c a q x numEdges hbound
    obtain ⟨draws, m, hm⟩ := NewModel_returns n c a q x numEdges hbound
    obtain ⟨h1, h2⟩ := NewModel_shape hm
    exact ⟨draws, m, hm, h1, h2⟩
  · intro n c a q x numEdges draws m hm
    exact NewModel_shape hm
  · intro hq
    refine ⟨fun draws order => updateOpinions_overfull model hq draws order, ?_⟩
    intro hmax hmin choices
    have hc := hcond hmax hmin
    have hstep : runnerStep choices (runnerInit model) =
        .error (if model.agents.length = 0 then .panic else .exhausted) := by
      unfold runnerStep
      have hm : (runnerInit model).model = model := rfl
      rw [hm, updateOpinions_overfull model hq]
    obtain ⟨k, hk⟩ : ∃ k, maxSteps = k + 1 := ⟨maxSteps - 1, by omega⟩
    subst hk
    unfold runner
    simp only [runnerLoop, hc, if_true, hstep]
  · intro hN hq choices
    exact runner_noAgents minStationary maxSteps choices model hN hq

/-- Witness of C13: one agent with two picks per step (`maxSteps = 1`), and no
agent with no pick (`maxSteps = 5`, `paramMinStationary = 2`). -/
theorem configuration_never_checked_witness :
    runnerCond paramMinStationary 1 (runnerInit loneAgentTwoPicks) = true ∧
    runner paramMinStationary loneAgentTwoPicks 1 pickZeroChoices =
      .error (if loneAgentTwoPicks.agents.length = 0 then .panic else .exhausted) ∧
    runner 2 noAgents 5 pickZeroChoices = .ok (List.replicate (min 5 2) []) :=
  have h1 := configuration_never_checked paramMinStationary 1 loneAgentTwoPicks
  have h2 := configuration_never_checked 2 5 noAgents
  ⟨h1.2.2.1 (by decide) (by decide),
    (h1.2.2.2.1 (by decide)).2 (by decide) (by decide) pickZeroChoices,
    h2.2.2.2.2 rfl rfl pickZeroChoices⟩

/-- C14 (as stated, fails): three agents without edges and opinions `1/5`,
`2/5`, `4/5`; when the commit loop visits the entry of agent `1` first, the
snapshot of step 1 is `[2/5, 1/5, 4/5]`: its entry `0` is `2/5`, while agent
`0` holds `1/5` after that step. -/
theorem snapshot_not_indexed_by_id :
    runner 1 threeFresh 1 secondFirstChoices = .ok [[2 / 5, 1 / 5, 4 / 5]] ∧
    runnerLoop 1 1 secondFirstChoices 1 (runnerInit threeFresh) =
      .ok { model := threeFresh, tstep := 2, stationary := 1,
            data := [[2 / 5, 1 / 5, 4 / 5]] } ∧
    threeFresh.agent? 0 = some (freshAgent 0 (1 / 5) ∅) ∧
    ([2 / 5, 1 / 5, 4 / 5] : List ℚ)[0]? ≠ some (freshAgent 0 (1 / 5) ∅).current_opinion := by
  refine ⟨by decide!, by decide!, by decide!, by decide!⟩

/-- C14 (amended): in every state `s` the loop of `runner` reaches, there is
one snapshot per executed step; snapshot `j` lists the `current_opinion` that
the agents hold after the commit of step `j + 1`, in the order in which the
commit loop of that step visited the map (so it is a permutation of these
opinions, not indexed by agent id), and has exactly `N` entries; the last
snapshot is that of the state `s` itself. -/
theorem snapshots_follow_commit_order (minStationary maxSteps : Nat)
    (choices : Nat → StepChoices) (model : Model) (k : Nat) (s : RunnerState)
    (hrun : runnerLoop minStationary maxSteps choices k (runnerInit model) = .ok s) :
    s.data.length + 1 = s.tstep ∧
    (∀ j, j < s.data.length → ∃ sj snap,
      runnerLoop minStationary maxSteps choices (j + 1) (runnerInit model) = .ok sj ∧
      sj.tstep = j + 2 ∧ s.data[j]? = some snap ∧
      snap = (rangeOrder (choices (j + 1)).commit sj.model.agents).map Agent.current_opinion ∧
      snap.Perm (sj.model.agents.map Agent.current_opinion) ∧
      snap.length = model.agents.length) ∧
    (1 ≤ s.data.length → s.data[s.data.length - 1]? =
      some ((rangeOrder (choices (s.tstep - 1)).commit s.model.agents).map
        Agent.current_opinion)) := by
  obtain ⟨hlen, hsnap⟩ := runnerLoop_data minStationary maxSteps choices model k s hrun
  obtain ⟨_, _, hself⟩ := runnerLoop_tstep minStationary maxSteps choices model k s hrun
  refine ⟨hlen, ?_, ?_⟩
  · intro j hj
    obtain ⟨sj, h1, h2, h3⟩ := hsnap j hj
    have hperm := (rangeOrder_perm (choices (j + 1)).commit sj.model.agents).map
      Agent.current_opinion
    refine ⟨sj, _, h1, h2, h3, rfl, hperm, ?_⟩
    have hids := runnerLoop_ids minStationary maxSteps choices model (j + 1) sj h1
    have hl : sj.model.agents.length = model.agents.length := by
      have := congrArg List.length hids
      simpa [Model.ids] using this
    rw [hperm.length_eq, List.length_map, hl]
  · intro h1
    obtain ⟨sj, h2, _, h4⟩ := hsnap (s.data.length - 1) (by omega)
    have he : s.data.length - 1 + 1 = s.tstep - 1 := by omega
    rw [he, hself] at h2
    injection h2 with h2
    rw [h4, he, h2]

/-- Witness of C14: Scenario A after three steps under `pickOneChoices`. -/
theorem snapshots_follow_commit_order_witness :
    scenarioAFinal.data.length + 1 = scenarioAFinal.tstep ∧
    (1 ≤ scenarioAFinal.data.length →
      scenarioAFinal.data[scenarioAFinal.data.length - 1]? =
        some ((rangeOrder (pickOneChoices (scenarioAFinal.tstep - 1)).commit
          scenarioAFinal.model.agents).map Agent.current_opinion)) :=
  have h := snapshots_follow_commit_order 2 5 pickOneChoices scenarioA 3 scenarioAFinal
    (by decide!)
  ⟨h.1, h.2.2⟩

/-- C15: `updateOpinions` and every step of `runner` leave the topology
unchanged: in the model `updateOpinions` returns and in every state the loop
of `runner` reaches, the list of entries with their ids and neighbor sets (in
particular the set of ids) is that of the initial model, and so are
`confidence`, `alpha` and `numUpdateNodes`; `updateOpinions` changes nothing
but `new_opinion` fields. -/
theorem topology_fixed (minStationary maxSteps : Nat) (choices : Nat → StepChoices)
    (model : Model) :
    (∀ draws order m1, updateOpinions model draws order = .ok m1 →
      m1.frame = model.frame ∧ m1.topology = model.topology ∧ m1.ids = model.ids) ∧
    (∀ k s, runnerLoop minStationary maxSteps choices k (runnerInit model) = .ok s →
      (s.model.topology = model.topology ∧ s.model.ids = model.ids ∧
        s.model.confidence = model.confidence ∧ s.model.alpha = model.alpha ∧
        s.model.numUpdateNodes = model.numUpdateNodes) ∧
      ∀ s1, runnerStep choices s = .ok s1 →
        s1.model.topology = s.model.topology ∧ s1.model.ids = s.model.ids) := by
  constructor
  · intro draws order m1 h
    have hf := updateOpinions_frame h
    exact ⟨hf, frame_topology hf, frame_ids hf⟩
  · intro k s h
    refine ⟨runnerLoop_topology minStationary maxSteps choices model k s h, ?_⟩
    intro s1 hs1
    obtain ⟨t1, t2, _⟩ := runnerStep_topology hs1
    exact ⟨t1, t2⟩

/-- Witness of C15: Scenario A after three steps under `pickOneChoices`. -/
theorem topology_fixed_witness :
    scenarioAFinal.model.topology = scenarioA.topology ∧
    scenarioAFinal.model.ids = scenarioA.ids ∧
    scenarioAFinal.model.confidence = scenarioA.confidence ∧
    scenarioAFinal.model.alpha = scenarioA.alpha ∧
    scenarioAFinal.model.numUpdateNodes = scenarioA.numUpdateNodes :=
  ((topology_fixed 2 5 pickOneChoices scenarioA).2 3 scenarioAFinal (by decide!)).1

/-- C16: for `n = 0` and `n = 1`, `numMaxEdges` is `0`, so the edge draw is
`0`; `initializeNetwork` then returns the model unchanged without using any
draw (it returns on the empty supply of draws, and on every other supply with
the same result), so the neighbor sets `NewModel` created empty stay empty.
For `n = 1` and an edge count `≥ 1` the loop could not end: the two ids drawn
are always equal. -/
theorem initializeNetwork_small (m : Model) (n : Nat) (hn : n ≤ 1) :
    numMaxEdges n = 0 ∧
    (∀ numEdges, numEdges ≤ numMaxEdges n → numEdges = 0) ∧
    initializeNetwork m n 0 [] = .ok m ∧
    (∀ draws, edgeLoop n 0 draws ⟨m, 0⟩ = .ok ⟨m, 0⟩ ∧ initializeNetwork m n 0 draws = .ok m) ∧
    (∀ (c a : ℚ) (q : Nat) (x : Nat → ℚ) (draws : List (Nat × Nat)),
      ∃ m1, NewModel n c a q x 0 draws = .ok m1 ∧ m1.agents.length = n ∧
        ∀ b ∈ m1.agents, b.neighbors = ∅) ∧
    (n = 1 → ∀ numEdges draws, 1 ≤ numEdges →
      initializeNetwork m n numEdges draws = .error .exhausted) := by
  have hmax : numMaxEdges n = 0 := by
    unfold numMaxEdges
    interval_cases n <;> rfl
  have hloop : ∀ draws, edgeLoop n 0 draws ⟨m, 0⟩ = .ok ⟨m, 0⟩ :=
    fun draws => edgeLoop_done draws ⟨m, 0⟩ (Nat.le_refl 0)
  have hret : ∀ draws, initializeNetwork m n 0 draws = .ok m := by
    intro draws
    unfold initializeNetwork
    rw [hloop draws]
    rfl
  refine ⟨hmax, ?_, hret [], fun draws => ⟨hloop draws, hret draws⟩, ?_, ?_⟩
  · intro numEdges h
    omega
  · intro c a q x draws
    refine ⟨_, NewModel_zero_edges n c a q x draws, by simp, ?_⟩
    intro b hb
    simp only [List.mem_map] at hb
    obtain ⟨k, _, hk⟩ := hb
    rw [← hk]
    rfl
  · intro h1 numEdges draws hpos
    subst h1
    unfold initializeNetwork
    rw [edgeLoop_single]
    have hlt : (0 : Nat) < numEdges := by omega
    simp only [hlt, if_true, one_ne_zero, if_false]

/-- Witness of C16: one agent. -/
theorem initializeNetwork_small_witness :
    numMaxEdges 1 = 0 ∧ initializeNetwork loneAgentTwoPicks 1 0 [] = .ok loneAgentTwoPicks :=
  have h := initializeNetwork_small loneAgentTwoPicks 1 (by decide)
  ⟨h.1, h.2.2.1⟩

/-- C17: let `model` be built by `NewModel`. Then every agent starts with
`new_opinion = current_opinion` (and `previous_opinion` equal to them), and in
every state the loop of `runner` reaches, that is at the start of every step,
every agent has `new_opinion = current_opinion`; a step leaves every agent
with `previous_opinion` equal to the `current_opinion` it had before the step
and `current_opinion` equal to its `new_opinion`. Nothing but the commit
re-establishes `new_opinion = current_opinion`. -/
theorem new_opinion_tracks_current (minStationary maxSteps : Nat) (choices : Nat → StepChoices)
    (n : Nat) (c a : ℚ) (q : Nat) (x : Nat → ℚ) (numEdges : Nat) (draws : List (Nat × Nat))
    (model : Model) (hbuild : NewModel n c a q x numEdges draws = .ok model) :
    (∀ b ∈ model.agents, b.new_opinion = b.current_opinion ∧
      b.previous_opinion = b.current_opinion) ∧
    ∀ k s, runnerLoop minStationary maxSteps choices k (runnerInit model) = .ok s →
      (∀ b ∈ s.model.agents, b.new_opinion = b.current_opinion) ∧
      ∀ s1, runnerStep choices s = .ok s1 →
        (∀ (id : Nat) (before after : Agent), s.model.agent? id = some before →
          s1.model.agent? id = some after →
          after.previous_opinion = before.current_opinion ∧
          after.current_opinion = after.new_opinion) ∧
        ∀ b ∈ s1.model.agents, b.new_opinion = b.current_opinion := by
  have hinit := NewModel_new_eq_current hbuild
  refine ⟨hinit, ?_⟩
  intro k s hrun
  refine ⟨runnerLoop_new_eq_current minStationary maxSteps choices model
    (fun b hb => (hinit b hb).1) k s hrun, ?_⟩
  intro s1 hs1
  refine ⟨fun id before after hb ha => runnerStep_commit hs1 id before after hb ha, ?_⟩
  obtain ⟨m1, _, hm, _⟩ := runnerStep_ok hs1
  rw [hm]
  exact commit_new_eq_current m1 _

/-- Witness of C17: Scenario A as built by `NewModel`, after three steps under
`pickOneChoices`. -/
theorem new_opinion_tracks_current_witness :
    (∀ b ∈ scenarioA.agents, b.new_opinion = b.current_opinion ∧
      b.previous_opinion = b.current_opinion) ∧
    ((∀ b ∈ scenarioAFinal.model.agents, b.new_opinion = b.current_opinion) ∧
      ∀ s1, runnerStep pickOneChoices scenarioAFinal = .ok s1 →
        (∀ (id : Nat) (before after : Agent), scenarioAFinal.model.agent? id = some before →
          s1.model.agent? id = some after →
          after.previous_opinion = before.current_opinion ∧
          after.current_opinion = after.new_opinion) ∧
        ∀ b ∈ s1.model.agents, b.new_opinion = b.current_opinion) :=
  have h := new_opinion_tracks_current 2 5 pickOneChoices 2 1 (1 / 2) 1
    (fun i => if i = 0 then 1 / 5 else 4 / 5) 1 [(0, 1)] scenarioA (by decide!)
  ⟨h.1, h.2 3 scenarioAFinal (by decide!)⟩

/-- C19: let the agent ids be exactly `0..N-1` with `N ≥ 1`, the neighbor
sets be loop-free sets of such ids, and `numUpdateNodes ≤ N`. Then for all
draws and iteration orders `updateOpinions` does not panic (it returns, or the
supplied draws are used up); every id the selection loop picks is below `N`
and is a key of the agent map; and for every agent with a neighbor, the partner
id of line 71 is below `numNeighbors ≤ N - 1` and is a key of the agent map. -/
theorem updateOpinions_lookups_succeed (m : Model) (hN : 1 ≤ m.agents.length)
    (hids : ∀ id, (m.agent? id).isSome = true ↔ id < m.agents.length)
    (hnb : ∀ a ∈ m.agents, a.neighbors ⊆ Finset.range m.agents.length ∧ a.id ∉ a.neighbors)
    (hq : m.numUpdateNodes ≤ m.agents.length) :
    (∀ draws order, updateOpinions m draws order ≠ .error .panic) ∧
    (∀ draws order, sufficientDraws m.agents.length m.numUpdateNodes draws = true →
      ∃ m1, updateOpinions m draws order = .ok m1) ∧
    (∀ draws nodes rest, selectNodes m.agents.length m.numUpdateNodes draws [] = .ok (nodes, rest) →
      ∀ i ∈ nodes, i < m.agents.length ∧ (m.agent? i).isSome = true) ∧
    (∀ a ∈ m.agents, ∀ r : Nat, a.neighbors.card ≠ 0 →
      pickNeighbor a r < a.neighbors.card ∧ a.neighbors.card ≤ m.agents.length - 1 ∧
      (m.agent? (pickNeighbor a r)).isSome = true) := by
  have hwf : m.WellFormed :=
    ⟨fun id hid => (hids id).mpr hid, fun a ha => (hnb a ha).1, hq⟩
  refine ⟨fun draws order => updateOpinions_ne_panic m hwf (by omega) draws order,
    fun draws order hs => updateOpinions_ok m hwf draws order hs, ?_, ?_⟩
  · intro draws nodes rest hsel i hi
    have hb := selectNodes_bound _ _ _ _ _ _ hsel (by intro x hx; cases hx) i hi
    exact ⟨hb, (hids i).mpr hb⟩
  · intro a ha r hc
    have h1 : pickNeighbor a r < a.neighbors.card := Nat.mod_lt _ (Nat.pos_of_ne_zero hc)
    have h2 := card_neighbors_le m a ha hids (hnb a ha).1 (hnb a ha).2
    exact ⟨h1, h2, (hids _).mpr (by omega)⟩

/-- Witness of C19: Scenario A. -/
theorem updateOpinions_lookups_succeed_witness :
    (∀ draws order, updateOpinions scenarioA draws order ≠ .error .panic) ∧
    (∀ draws order, sufficientDraws scenarioA.agents.length scenarioA.numUpdateNodes draws = true →
      ∃ m1, updateOpinions scenarioA draws order = .ok m1) :=
  have h := updateOpinions_lookups_succeed scenarioA (by decide)
    (by
      intro id
      constructor
      · intro h
        by_contra hlt
        have h2 : 2 ≤ id := Nat.le_of_not_lt hlt
        have hnone : scenarioA.agent? id = none := by
          unfold Model.agent?
          rw [List.find?_eq_none]
          intro b hb
          simp only [scenarioA, List.mem_cons, List.mem_singleton, List.not_mem_nil,
            or_false] at hb
          rcases hb with hb | hb <;> subst hb <;> simp [freshAgent] <;> omega
        rw [hnone] at h
        cases h
      · intro h
        have h2 : id < 2 := h
        interval_cases id <;> decide)
    (by decide) (by decide)
  ⟨h.1, h.2.1⟩

/-- C20: on a model whose agent keys are pairwise distinct (as in any Go map),
every call of `updateOpinions` that returns leaves the sum of `new_opinion`
over all agents unchanged (each interaction preserves it). Hence in every
state the loop of `runner` reaches, the sum of `new_opinion` is the initial
one, the sum of every snapshot is that sum, and after the first step so is the
sum of `current_opinion`; when every agent starts with
`new_opinion = current_opinion`, as `NewModel` sets them, it is the sum of the
initial opinions. -/
theorem opinion_sum_preserved (minStationary maxSteps : Nat) (choices : Nat → StepChoices)
    (model : Model) (hkeys : model.ids.Nodup) :
    (∀ i j m1, interact model i j = .ok m1 → m1.totalNew = model.totalNew) ∧
    (∀ draws order m1, updateOpinions model draws order = .ok m1 →
      m1.totalNew = model.totalNew) ∧
    (∀ k s, runnerLoop minStationary maxSteps choices k (runnerInit model) = .ok s →
      s.model.totalNew = model.totalNew ∧
      (2 ≤ s.tstep → s.model.totalCurrent = model.totalNew) ∧
      (∀ snap ∈ s.data, snap.sum = model.totalNew) ∧
      ∀ draws order m1, updateOpinions s.model draws order = .ok m1 →
        m1.totalNew = s.model.totalNew) ∧
    ((∀ a ∈ model.agents, a.new_opinion = a.current_opinion) →
      model.totalNew = model.totalCurrent) := by
  refine ⟨fun i j m1 h => interact_totalNew hkeys h,
    fun draws order m1 h => updateOpinions_totalNew hkeys h, ?_, ?_⟩
  · intro k s hrun
    obtain ⟨t1, t2, t3⟩ := runnerLoop_totals minStationary maxSteps choices model hkeys k s hrun
    refine ⟨t1, t2, t3, ?_⟩
    intro draws order m1 h
    have hnd : s.model.ids.Nodup := by
      rw [runnerLoop_ids minStationary maxSteps choices model k s hrun]
      exact hkeys
    exact updateOpinions_totalNew hnd h
  · intro hnew
    unfold Model.totalNew Model.totalCurrent
    congr 1
    apply List.map_congr_left
    intro a ha
    exact hnew a ha

/-- Witness of C20: Scenario A after three steps under `pickOneChoices`; the
opinions `1/5 + 4/5` have become `1/2 + 1/2`. -/
theorem opinion_sum_preserved_witness :
    scenarioAFinal.model.totalNew = scenarioA.totalNew ∧
    (2 ≤ scenarioAFinal.tstep → scenarioAFinal.model.totalCurrent = scenarioA.totalNew) :=
  have h := (opinion_sum_preserved 2 5 pickOneChoices scenarioA (by decide)).2.2.1 3
    scenarioAFinal (by decide!)
  ⟨h.1, h.2.1⟩

/-- C18: on a well-formed model, let the picked ids `nodes` be processed in
the order listed, the raw partner draw of picked agent `i` being `draw i`.
Then the loop of `updateOpinions` returns the model in which every agent `k`
has `new_opinion[k] = new_opinion_before[k] + netChange k`, where `netChange k`
is minus the sum of `alpha * d_i` over the picked `i = k` that interact plus the
sum of `alpha * d_i` over the picked `i` with partner `k` that interact, `d_i`
being computed from the opinions at the start of the step; every other field
is unchanged. The result is the same for every order of the picked ids, and
it is what `updateOpinions` returns for every iteration order of
`nodes_to_update`. -/
theorem updateLoop_accumulates (m : Model) (hwf : m.WellFormed) (draw : Nat → Nat)
    (nodes rest : List Nat) (hb : ∀ i ∈ nodes, i < m.agents.length) :
    updateLoop nodes m (partnerDraws m draw nodes ++ rest) =
      .ok (m.addToNew (netChange m draw nodes), rest) ∧
    (∀ k a, m.agent? k = some a →
      (m.addToNew (netChange m draw nodes)).agent? k =
        some { a with new_opinion := a.new_opinion + netChange m draw nodes k }) ∧
    (m.addToNew (netChange m draw nodes)).frame = m.frame ∧
    (∀ other : List Nat, other.Perm nodes →
      updateLoop other m (partnerDraws m draw other ++ rest) =
        .ok (m.addToNew (netChange m draw nodes), rest)) ∧
    (∀ sel picked order : List Nat,
      selectNodes m.agents.length m.numUpdateNodes sel [] = .ok (picked, []) →
      updateOpinions m (sel ++ (partnerDraws m draw (rangeOrder order picked) ++ rest)) order =
        .ok (m.addToNew (netChange m draw picked))) := by
  have hmain : ∀ l : List Nat, (∀ i ∈ l, i < m.agents.length) →
      updateLoop l m (partnerDraws m draw l ++ rest) =
        .ok (m.addToNew (netChange m draw l), rest) := by
    intro l hl
    have h := updateLoop_addToNew m hwf draw rest l (fun _ => 0) hl
    rw [addToNew_zero] at h
    rw [h]
    congr 2
    apply addToNew_congr
    intro k
    rw [zero_add]
  refine ⟨hmain nodes hb, ?_, addToNew_frame m _, ?_, ?_⟩
  · intro k a ha
    rw [agent?_addToNew, ha]
    rfl
  · intro other hperm
    rw [hmain other (fun i hi => hb i (hperm.mem_iff.mp hi))]
    congr 2
    apply addToNew_congr
    intro k
    exact netChange_perm m draw hperm k
  · intro sel picked order hsel
    have hbound := selectNodes_bound _ _ _ _ _ _ hsel (by intro x hx; cases hx)
    have hperm := rangeOrder_perm order picked
    have happ := selectNodes_append m.agents.length m.numUpdateNodes
      (partnerDraws m draw (rangeOrder order picked) ++ rest) sel [] picked [] hsel
    rw [List.nil_append] at happ
    unfold updateOpinions
    rw [happ]
    simp only []
    rw [hmain (rangeOrder order picked) (fun i hi => hbound i (hperm.mem_iff.mp hi))]
    simp only []
    congr 1
    apply addToNew_congr
    intro k
    exact netChange_perm m draw hperm k

/-- Witness of C18: Scenario A with both agents picked, in the order `1, 0`
and with partner draws `0`; agent `1` interacts with agent `0`, agent `0` with
itself. -/
theorem updateLoop_accumulates_witness :
    updateLoop [1, 0] scenarioA (partnerDraws scenarioA zeroDraw [1, 0] ++ []) =
      .ok (scenarioA.addToNew (netChange scenarioA zeroDraw [1, 0]), []) ∧
    (scenarioA.addToNew (netChange scenarioA zeroDraw [1, 0])).agents.map Agent.new_opinion =
      [1 / 2, 1 / 2] :=
  ⟨(updateLoop_accumulates scenarioA ⟨by decide, by decide, by decide⟩ zeroDraw [1, 0] []
    (by decide)).1, by decide!⟩

end DynamicAgentModel
